import Mathlib

/-!
# Verification of the autonomous snake controller

This file gives a shallow embedding, in Lean 4, of the pathfinding core of the
snake repository (`src/services/aiSnake.ts`, `src/services/algorithms/*`), and
proves or refutes the testable properties stated in the specification.

Embedding conventions:
* A grid cell `{x, y}` becomes the structure `Cell` with `Int` coordinates
  (neighbor computation can step outside `[0, boardSize)`).
* JavaScript numbers are modelled as `Int` where the program only ever stores
  integers (coordinates, BFS/Dijkstra path costs `g`), and as `ℚ` where a
  configurable weight makes fractional values possible (`h`, `f`,
  `heuristicWeight`, `shortcutThreshold`).
* A JavaScript `Set<string>` keyed by `"x,y"` becomes a `Finset Cell`
  (the string encoding of integer pairs is injective).
* The `parent` pointer chain of a search node, together with the
  reconstruct-and-reverse logic at the goal, is modelled by each node carrying
  `path`, the list of cells from (excluding) the start up to and including the
  node itself; reconstruction then simply returns that list.
* `Array.prototype.sort` with comparator `(a, b) => a.key - b.key` is a stable
  sort by `key`; a stable sort by a total preorder has a unique result, so it
  is modelled by insertion sort `sortNodes`.
* The unbounded `while` loops of the searches are modelled with an explicit
  fuel parameter; each wrapper passes fuel that is proved sufficient, so the
  fuel-exhaustion branch is dead code (`bfs_fuel_sufficient` etc.).
* `Math.random()`-based choices take an extra `Nat` argument selecting the
  chosen index; theorems quantify over it.
* Accessing `this.snake[0]` on an empty snake throws a `TypeError` in the
  source; functions that would do so return `none` in that case, and the data
  model (spec §3) guarantees a snake of length ≥ 1.
-/

/-- A grid cell, `Coordinates` in `src/store/gameStore.ts` (animation fields
are irrelevant to the controller and omitted). -/
structure Cell where
  x : Int
  y : Int
deriving DecidableEq, Repr

/-- `Direction` from `src/store/gameStore.ts`. -/
inductive Direction where
  | UP
  | DOWN
  | LEFT
  | RIGHT
deriving DecidableEq, Repr

/-- Two cells are 4-adjacent when they differ by exactly 1 in exactly one
coordinate. -/
def Adjacent (a b : Cell) : Prop :=
  (a.x - b.x).natAbs + (a.y - b.y).natAbs = 1

instance : DecidableRel Adjacent := fun a b => by unfold Adjacent; infer_instance

/-- All cells of an `n × n` board, as a list (row major). -/
def allCellsList (n : Nat) : List Cell :=
  (List.range n).flatMap fun y => (List.range n).map fun (x : Nat) => ⟨(x : Int), (y : Int)⟩

/-- All cells of an `n × n` board, as a finite set. -/
def allCells (n : Nat) : Finset Cell :=
  (allCellsList n).toFinset

/-- Manhattan distance between two cells (unweighted). -/
def manhattan (a b : Cell) : Nat :=
  (a.x - b.x).natAbs + (a.y - b.y).natAbs

/-- `AISnake.heuristic` / `PathfindingUtils.manhattanDistance`:
`weight * (|ax-bx| + |ay-by|)`. -/
def heuristic (w : ℚ) (a b : Cell) : ℚ :=
  w * (manhattan a b : ℚ)

/-- `AISnake.isValidPosition` (aiSnake.ts lines 69-89) and the identical
`PathfindingUtils.isValidPosition`: a position is valid unless it is out of
bounds, an obstacle, or a snake segment other than the last (the tail is
excluded because it moves away next tick). The loop
`for (let i = 0; i < snake.length - 1; i++)` ranges over all but the last
segment, i.e. `snake.dropLast`. -/
def isValidPosition (boardSize : Nat) (snake obstacles : List Cell) (pos : Cell) : Bool :=
  if pos.x < 0 || pos.x ≥ (boardSize : Int) || pos.y < 0 || pos.y ≥ (boardSize : Int) then
    false
  else if obstacles.any fun o => o.x = pos.x && o.y = pos.y then
    false
  else if (snake.dropLast).any fun s => s.x = pos.x && s.y = pos.y then
    false
  else
    true

/-- `AISnake.getNeighbors` (aiSnake.ts lines 92-101) and the identical
`PathfindingUtils.getNeighbors`: the four neighbors in the fixed order
UP, DOWN, LEFT, RIGHT, filtered by validity. -/
def getNeighbors (boardSize : Nat) (snake obstacles : List Cell) (pos : Cell) : List Cell :=
  [(⟨pos.x, pos.y - 1⟩ : Cell), ⟨pos.x, pos.y + 1⟩, ⟨pos.x - 1, pos.y⟩, ⟨pos.x + 1, pos.y⟩].filter
    (isValidPosition boardSize snake obstacles)

/-- `PathfindingUtils.getDirectionFromPositions` and the inlined direction
comparisons in `AISnake.getNextDirection`: horizontal difference checked
before vertical, default RIGHT. -/
def getDirectionFromPositions (current next : Cell) : Direction :=
  if next.x < current.x then .LEFT
  else if next.x > current.x then .RIGHT
  else if next.y < current.y then .UP
  else if next.y > current.y then .DOWN
  else .RIGHT

/-- A search node (`type Node` in aiSnake.ts): coordinates, cost from start
`g` (always an integer: `0`, then `+1` per step), heuristic `h`, total `f`,
and the parent chain represented by the accumulated path from the start
(excluding the start, including this node's own cell). -/
structure Nd where
  x : Int
  y : Int
  g : Int
  h : ℚ
  f : ℚ
  path : List Cell
deriving DecidableEq, Repr

/-- The cell of a node. -/
def Nd.cell (nd : Nd) : Cell :=
  ⟨nd.x, nd.y⟩

/-- Insert a node into a sorted list, after all elements that compare
less-or-equal: the stable insertion position. -/
def insertSorted (le : Nd → Nd → Bool) (a : Nd) : List Nd → List Nd
  | [] => [a]
  | b :: t => if le b a then b :: insertSorted le a t else a :: b :: t

/-- Stable insertion sort. `Array.prototype.sort` with comparator
`(a, b) => key a - key b` is a stable sort by `key`, and a stable sort with
respect to a total preorder is unique, so this models the source's sort. -/
def sortNodes (le : Nd → Nd → Bool) : List Nd → List Nd
  | [] => []
  | a :: t => insertSorted le a (sortNodes le t)

/-- The BFS inner `for (const neighbor of neighbors)` loop (aiSnake.ts lines
442-464): push each not-yet-visited neighbor at the end of the queue and mark
it visited. -/
def bfsEnqueue (cur : Nd) (neighbors : List Cell) (queue : List Nd)
    (visited : Finset Cell) : List Nd × Finset Cell :=
  match neighbors with
  | [] => (queue, visited)
  | nb :: t =>
    if nb ∈ visited then
      bfsEnqueue cur t queue visited
    else
      bfsEnqueue cur t (queue ++ [⟨nb.x, nb.y, cur.g + 1, 0, 0, cur.path ++ [nb]⟩])
        (insert nb visited)

/-- The BFS main loop (aiSnake.ts lines 419-465), with explicit fuel. The
queue is FIFO; the goal test happens at dequeue; reconstruction returns the
popped node's accumulated path (parent walk + reverse + shift of the start). -/
def bfsLoop (boardSize : Nat) (snake obstacles : List Cell) (goal : Cell) :
    Nat → List Nd → Finset Cell → Option (List Cell)
  | 0, _, _ => none
  | _ + 1, [], _ => none
  | fuel + 1, cur :: rest, visited =>
    if cur.x = goal.x ∧ cur.y = goal.y then
      some cur.path
    else
      let step := bfsEnqueue cur (getNeighbors boardSize snake obstacles cur.cell) rest visited
      bfsLoop boardSize snake obstacles goal fuel step.1 step.2

/-- `AISnake.findPathBFS` (aiSnake.ts lines 400-469). The loop dequeues a
fresh cell every iteration, so `boardSize² + 2` fuel never runs out
(`bfs_fuel_sufficient`). -/
def findPathBFS (boardSize : Nat) (snake obstacles : List Cell) (start goal : Cell) :
    Option (List Cell) :=
  bfsLoop boardSize snake obstacles goal (boardSize * boardSize + 2)
    [⟨start.x, start.y, 0, 0, 0, []⟩] {start}

/-- `openList.find(n => n.x === neighbor.x && n.y === neighbor.y)` followed by
an in-place update: replace the first node matching the predicate. -/
def updateFirst (p : Nd → Bool) (f : Nd → Nd) : List Nd → List Nd
  | [] => []
  | a :: t => if p a then f a :: t else a :: updateFirst p f t

/-- The A* inner neighbor loop (aiSnake.ts lines 363-392): skip closed
neighbors; push unseen ones with `g+1` and weighted heuristic; relax an open
node when the new `g` is smaller (updating `g`, `f` and the parent chain). -/
def aStarExpand (w : ℚ) (goal : Cell) (cur : Nd) (closed : Finset Cell)
    (neighbors : List Cell) (openList : List Nd) : List Nd :=
  match neighbors with
  | [] => openList
  | nb :: t =>
    if nb ∈ closed then
      aStarExpand w goal cur closed t openList
    else
      match openList.find? (fun n => n.x = nb.x && n.y = nb.y) with
      | none =>
        aStarExpand w goal cur closed t
          (openList ++ [⟨nb.x, nb.y, cur.g + 1, heuristic w nb goal,
            ((cur.g + 1 : Int) : ℚ) + heuristic w nb goal, cur.path ++ [nb]⟩])
      | some ex =>
        if cur.g + 1 < ex.g then
          aStarExpand w goal cur closed t
            (updateFirst (fun n => n.x = nb.x && n.y = nb.y)
              (fun n => { n with
                g := cur.g + 1
                f := ((cur.g + 1 : Int) : ℚ) + n.h
                path := cur.path ++ [nb] }) openList)
        else
          aStarExpand w goal cur closed t openList

/-- The A* main loop (aiSnake.ts lines 335-393): sort the open list by `f`,
shift the head, add it to the closed set, test the goal, else expand. Also
returns the closed set at exit, which counts the explored nodes. -/
def aStarLoop (boardSize : Nat) (snake obstacles : List Cell) (goal : Cell) (w : ℚ) :
    Nat → List Nd → Finset Cell → Option (List Cell) × Finset Cell
  | 0, _, closed => (none, closed)
  | fuel + 1, openList, closed =>
    match sortNodes (fun a b => decide (a.f ≤ b.f)) openList with
    | [] => (none, closed)
    | cur :: rest =>
      let closed' := insert cur.cell closed
      if cur.x = goal.x ∧ cur.y = goal.y then
        (some cur.path, closed')
      else
        aStarLoop boardSize snake obstacles goal w fuel
          (aStarExpand w goal cur closed'
            (getNeighbors boardSize snake obstacles cur.cell) rest) closed'

/-- `AISnake.findPathAStar` (aiSnake.ts lines 316-397), instrumented to also
return the closed set at exit (the explored nodes). Every iteration closes a
cell not closed before, so `boardSize² + 2` fuel never runs out
(`astar_fuel_sufficient`). -/
def aStarSearch (boardSize : Nat) (snake obstacles : List Cell) (start goal : Cell)
    (w : ℚ) : Option (List Cell) × Finset Cell :=
  aStarLoop boardSize snake obstacles goal w (boardSize * boardSize + 2)
    [⟨start.x, start.y, 0, heuristic w start goal, heuristic w start goal, []⟩] ∅

/-- The path component of `AISnake.findPathAStar`. -/
def findPathAStar (boardSize : Nat) (snake obstacles : List Cell) (start goal : Cell)
    (w : ℚ) : Option (List Cell) :=
  (aStarSearch boardSize snake obstacles start goal w).1

/-- The Dijkstra inner neighbor loop (aiSnake.ts lines 592-621): identical to
the A* one except `h = 0` and `f = g`. -/
def dijkstraExpand (cur : Nd) (closed : Finset Cell) (neighbors : List Cell)
    (openList : List Nd) : List Nd :=
  match neighbors with
  | [] => openList
  | nb :: t =>
    if nb ∈ closed then
      dijkstraExpand cur closed t openList
    else
      match openList.find? (fun n => n.x = nb.x && n.y = nb.y) with
      | none =>
        dijkstraExpand cur closed t
          (openList ++ [⟨nb.x, nb.y, cur.g + 1, 0, ((cur.g + 1 : Int) : ℚ), cur.path ++ [nb]⟩])
      | some ex =>
        if cur.g + 1 < ex.g then
          dijkstraExpand cur closed t
            (updateFirst (fun n => n.x = nb.x && n.y = nb.y)
              (fun n => { n with
                g := cur.g + 1
                f := ((cur.g + 1 : Int) : ℚ)
                path := cur.path ++ [nb] }) openList)
        else
          dijkstraExpand cur closed t openList

/-- The Dijkstra main loop (aiSnake.ts lines 564-622): sort by `g`, shift,
close, test goal, expand. Also returns the closed set at exit. -/
def dijkstraLoop (boardSize : Nat) (snake obstacles : List Cell) (goal : Cell) :
    Nat → List Nd → Finset Cell → Option (List Cell) × Finset Cell
  | 0, _, closed => (none, closed)
  | fuel + 1, openList, closed =>
    match sortNodes (fun a b => decide (a.g ≤ b.g)) openList with
    | [] => (none, closed)
    | cur :: rest =>
      let closed' := insert cur.cell closed
      if cur.x = goal.x ∧ cur.y = goal.y then
        (some cur.path, closed')
      else
        dijkstraLoop boardSize snake obstacles goal fuel
          (dijkstraExpand cur closed'
            (getNeighbors boardSize snake obstacles cur.cell) rest) closed'

/-- `AISnake.findPathDijkstra` (aiSnake.ts lines 546-626), instrumented like
`aStarSearch`. -/
def dijkstraSearch (boardSize : Nat) (snake obstacles : List Cell) (start goal : Cell) :
    Option (List Cell) × Finset Cell :=
  dijkstraLoop boardSize snake obstacles goal (boardSize * boardSize + 2)
    [⟨start.x, start.y, 0, 0, 0, []⟩] ∅

/-- The path component of `AISnake.findPathDijkstra`. -/
def findPathDijkstra (boardSize : Nat) (snake obstacles : List Cell) (start goal : Cell) :
    Option (List Cell) :=
  (dijkstraSearch boardSize snake obstacles start goal).1

/-- The greedy inner neighbor loop (aiSnake.ts lines 519-537): push every
not-yet-visited neighbor (duplicates in the open list are possible — there is
no open-list lookup and `visited` is only extended at dequeue time). -/
def greedyExpand (w : ℚ) (goal : Cell) (cur : Nd) (visited : Finset Cell)
    (neighbors : List Cell) (openList : List Nd) : List Nd :=
  match neighbors with
  | [] => openList
  | nb :: t =>
    if nb ∈ visited then
      greedyExpand w goal cur visited t openList
    else
      greedyExpand w goal cur visited t
        (openList ++ [⟨nb.x, nb.y, cur.g + 1, heuristic w nb goal, heuristic w nb goal,
          cur.path ++ [nb]⟩])

/-- The greedy best-first main loop (aiSnake.ts lines 490-538): sort by `h`
only, shift, mark visited, test goal, expand. -/
def greedyLoop (boardSize : Nat) (snake obstacles : List Cell) (goal : Cell) (w : ℚ) :
    Nat → List Nd → Finset Cell → Option (List Cell)
  | 0, _, _ => none
  | fuel + 1, openList, visited =>
    match sortNodes (fun a b => decide (a.h ≤ b.h)) openList with
    | [] => none
    | cur :: rest =>
      let visited' := insert cur.cell visited
      if cur.x = goal.x ∧ cur.y = goal.y then
        some cur.path
      else
        greedyLoop boardSize snake obstacles goal w fuel
          (greedyExpand w goal cur visited'
            (getNeighbors boardSize snake obstacles cur.cell) rest) visited'

/-- `AISnake.findPathGreedy` (aiSnake.ts lines 472-543). Duplicate open-list
entries make the iteration count worse than `boardSize²`; a strictly
decreasing potential bounds it by `5 ^ (boardSize² + 1)`
(`greedy_fuel_sufficient`), which the wrapper passes as fuel. -/
def findPathGreedy (boardSize : Nat) (snake obstacles : List Cell) (start goal : Cell)
    (w : ℚ) : Option (List Cell) :=
  greedyLoop boardSize snake obstacles goal w (5 ^ (boardSize * boardSize + 1) + 1)
    [⟨start.x, start.y, 0, heuristic w start goal, heuristic w start goal, []⟩] ∅

/-- `AISnake.generateHamiltonianCycle` (aiSnake.ts lines 122-159): for an odd
board the source warns, switches the instance to A* and leaves the cycle
empty (that side effect on `this.algorithm` is outside this function's
value); for an even board it generates the lawn-mower pattern, even rows left
to right and odd rows right to left. -/
def generateHamiltonianCycle (boardSize : Nat) : List Cell :=
  if boardSize % 2 ≠ 0 then
    []
  else
    (List.range boardSize).flatMap fun y =>
      if y % 2 = 0 then
        (List.range boardSize).map fun x => (⟨x, y⟩ : Cell)
      else
        ((List.range boardSize).map fun x => (⟨x, y⟩ : Cell)).reverse

/-- `HamiltonianAlgorithm.isCellValidForCycle` (HamiltonianAlgorithm.ts lines
69-73): in bounds and not an obstacle. -/
def isCellValidForCycle (boardSize : Nat) (obstacles : List Cell) (x y : Int) : Bool :=
  if x < 0 || x ≥ (boardSize : Int) || y < 0 || y ≥ (boardSize : Int) then false
  else if obstacles.any fun o => o.x = x && o.y = y then false
  else true

/-- `HamiltonianAlgorithm.generateEvenSizeCycle` (HamiltonianAlgorithm.ts
lines 75-87): the lawn-mower pattern over valid cells. -/
def generateEvenSizeCycle (boardSize : Nat) (obstacles : List Cell) : List Cell :=
  (List.range boardSize).flatMap fun y =>
    if y % 2 = 0 then
      (List.range boardSize).filterMap fun x =>
        if isCellValidForCycle boardSize obstacles x y then some ⟨x, y⟩ else none
    else
      ((List.range boardSize).reverse).filterMap fun x =>
        if isCellValidForCycle boardSize obstacles x y then some ⟨x, y⟩ else none

/-- The first block of `HamiltonianAlgorithm.generateOddSizeCycle`
(HamiltonianAlgorithm.ts lines 90-103): boustrophedon over rows
`0 .. boardSize-2` restricted to columns `0 .. boardSize-2`. -/
def oddBoustrophedonBlock (boardSize : Nat) (obstacles : List Cell) : List Cell :=
  (List.range (boardSize - 1)).flatMap fun (y : Nat) =>
    if y % 2 = 0 then
      (List.range (boardSize - 1)).filterMap fun (x : Nat) =>
        if isCellValidForCycle boardSize obstacles x y then some ⟨(x : Int), (y : Int)⟩ else none
    else
      ((List.range (boardSize - 1)).reverse).filterMap fun (x : Nat) =>
        if isCellValidForCycle boardSize obstacles x y then some ⟨(x : Int), (y : Int)⟩ else none

/-- The second block of `generateOddSizeCycle` (lines 104-107): the rightmost
column, top to bottom, over rows `0 .. boardSize-2`. -/
def oddRightColumnBlock (boardSize : Nat) (obstacles : List Cell) : List Cell :=
  (List.range (boardSize - 1)).filterMap fun (y : Nat) =>
    if isCellValidForCycle boardSize obstacles ((boardSize : Int) - 1) y then
      some ⟨(boardSize : Int) - 1, (y : Int)⟩
    else none

/-- The third block of `generateOddSizeCycle` (lines 108-111): the bottom
row, right to left. -/
def oddBottomRowBlock (boardSize : Nat) (obstacles : List Cell) : List Cell :=
  ((List.range boardSize).reverse).filterMap fun (x : Nat) =>
    if isCellValidForCycle boardSize obstacles x ((boardSize : Int) - 1) then
      some ⟨(x : Int), (boardSize : Int) - 1⟩
    else none

/-- `HamiltonianAlgorithm.generateOddSizeCycle` (HamiltonianAlgorithm.ts
lines 89-112): the three blocks in source order. -/
def generateOddSizeCycle (boardSize : Nat) (obstacles : List Cell) : List Cell :=
  oddBoustrophedonBlock boardSize obstacles ++ oddRightColumnBlock boardSize obstacles ++
    oddBottomRowBlock boardSize obstacles

/-- `HamiltonianAlgorithm.findPath` from the earlier revision of the strategy
(`src/unnamed/part_000`, lines 104-108): the cycle-follower does no direct
pathfinding and returns `null` unconditionally. -/
def hamiltonianFindPath (_start _goal : Cell) : Option (List Cell) :=
  none

/-- The algorithm selector (`type Algorithm` in aiSnake.ts). -/
inductive Algorithm where
  | astar
  | bfs
  | greedy
  | dijkstra
  | hamiltonian
deriving DecidableEq, Repr

/-- `AISnakeConfig` with the defaults filled in by the constructor. -/
structure AIConfig where
  heuristicWeight : ℚ
  shortcutThreshold : ℚ
deriving DecidableEq, Repr

/-- The mutable state of an `AISnake` instance. -/
structure AIState where
  boardSize : Nat
  snake : List Cell
  food : Cell
  obstacles : List Cell
  path : List Cell
  pathIndex : Nat
  algorithm : Algorithm
  config : AIConfig
  hamiltonianCycle : List Cell
deriving DecidableEq, Repr

/-- `this.hamiltonianMap.get(key)`: the map is built by a `forEach` whose
`set` overwrites, so a duplicated cell maps to its last index in the cycle. -/
def hamiltonianLookup (cycle : List Cell) (c : Cell) : Option Nat :=
  match cycle.reverse.indexOf? c with
  | none => none
  | some i => some (cycle.length - 1 - i)

/-- `AISnake.getRandomDirection` (aiSnake.ts lines 769-795). With no valid
moves it derives a direction from `head − snake[1]`, where the JavaScript
`snake[1]?.x || head.x` falls back to `head.x` both when there is no second
segment and when its coordinate is `0` (a falsy value). The random pick of a
valid move is modelled by the index argument `r` taken modulo the number of
valid moves. Reading `this.snake[0]` of an empty snake throws in the source;
that is modelled as `none`. -/
def getRandomDirection (st : AIState) (r : Nat) : Option Direction :=
  match st.snake with
  | [] => none
  | head :: restSnake =>
    let validMoves := getNeighbors st.boardSize st.snake st.obstacles head
    match validMoves with
    | [] =>
      let sx : Int := match restSnake.head? with
        | some s => if s.x = 0 then head.x else s.x
        | none => head.x
      let sy : Int := match restSnake.head? with
        | some s => if s.y = 0 then head.y else s.y
        | none => head.y
      let dx := head.x - sx
      let dy := head.y - sy
      if dx > 0 then some .RIGHT
      else if dx < 0 then some .LEFT
      else if dy > 0 then some .DOWN
      else if dy < 0 then some .UP
      else some .RIGHT
    | mv :: mvs =>
      let randomMove := (mv :: mvs).getD (r % (mv :: mvs).length) mv
      if randomMove.x < head.x then some .LEFT
      else if randomMove.x > head.x then some .RIGHT
      else if randomMove.y < head.y then some .UP
      else if randomMove.y > head.y then some .DOWN
      else some .RIGHT

/-- `AISnake.getNextDirection` (aiSnake.ts lines 728-766). When the stored
path is exhausted, a hamiltonian instance follows its cycle and any other
falls back to a random direction; otherwise the move `path[pathIndex]` is
consumed and `pathIndex` is incremented — the only state change. Returns the
direction together with the updated state; `none` models the `TypeError` on
an empty snake. -/
def getNextDirection (st : AIState) (r : Nat) : Option (Direction × AIState) :=
  if st.path.length = 0 ∨ st.pathIndex ≥ st.path.length then
    match st.snake with
    | [] => none
    | head :: _ =>
      if st.algorithm = .hamiltonian ∧ st.hamiltonianCycle.length > 0 then
        match hamiltonianLookup st.hamiltonianCycle head with
        | some i =>
          let nextPos := st.hamiltonianCycle.getD ((i + 1) % st.hamiltonianCycle.length) head
          if nextPos.x < head.x then some (.LEFT, st)
          else if nextPos.x > head.x then some (.RIGHT, st)
          else if nextPos.y < head.y then some (.UP, st)
          else if nextPos.y > head.y then some (.DOWN, st)
          else (getRandomDirection st r).map fun d => (d, st)
        | none => (getRandomDirection st r).map fun d => (d, st)
      else
        (getRandomDirection st r).map fun d => (d, st)
  else
    match st.snake with
    | [] => none
    | head :: _ =>
      let nextPos := st.path.getD st.pathIndex head
      let st' := { st with pathIndex := st.pathIndex + 1 }
      if nextPos.x < head.x then some (.LEFT, st')
      else if nextPos.x > head.x then some (.RIGHT, st')
      else if nextPos.y < head.y then some (.UP, st')
      else if nextPos.y > head.y then some (.DOWN, st')
      else (getRandomDirection st r).map fun d => (d, st')

/-- `Number.MAX_SAFE_INTEGER`. -/
def maxSafeInteger : ℚ :=
  2 ^ 53 - 1

/-- The per-move key computed inside `AISnake.findSafeMove` (aiSnake.ts lines
655-673): the minimum over all body segments except the head of the weighted
Manhattan distance, starting from `MAX_SAFE_INTEGER`. -/
def minDistanceToBody (w : ℚ) (snake : List Cell) (move : Cell) : ℚ :=
  snake.tail.foldl (fun acc seg => min acc (heuristic w move seg)) maxSafeInteger

/-- `AISnake.findSafeMove` (aiSnake.ts lines 629-677): with no valid neighbor
return `null`; a hamiltonian instance first tries the next cycle cell; then
`reduce` keeps the first neighbor whose body-distance key is strictly larger
than the incumbent's, starting from the first neighbor. -/
def findSafeMove (st : AIState) : Option Cell :=
  match st.snake with
  | [] => none
  | head :: _ =>
    let possibleMoves := getNeighbors st.boardSize st.snake st.obstacles head
    match possibleMoves with
    | [] => none
    | m0 :: ms =>
      let cycleStep : Option Cell :=
        if st.algorithm = .hamiltonian ∧ st.hamiltonianCycle.length > 0 then
          match hamiltonianLookup st.hamiltonianCycle head with
          | some i =>
            let nextPos := st.hamiltonianCycle.getD ((i + 1) % st.hamiltonianCycle.length) head
            if (m0 :: ms).any fun mv => mv.x = nextPos.x && mv.y = nextPos.y then
              some nextPos
            else none
          | none => none
        else none
      match cycleStep with
      | some nextPos => some nextPos
      | none =>
        some ((m0 :: ms).foldl
          (fun safest move =>
            if minDistanceToBody st.config.heuristicWeight st.snake move >
                minDistanceToBody st.config.heuristicWeight st.snake safest then
              move
            else safest) m0)

/-- The state of a `HamiltonianAlgorithm` instance
(HamiltonianAlgorithm.ts), restricted to the fields `isShortcutSafe` and
`canReachTailAfterShortcut` read. -/
structure HamState where
  boardSize : Nat
  snake : List Cell
  food : Cell
  obstacles : List Cell
  cycle : List Cell
  shortcutThreshold : ℚ
deriving DecidableEq, Repr

/-- `HamiltonianAlgorithm.canReachTailAfterShortcut` (HamiltonianAlgorithm.ts
lines 356-371): simulate eating the food (new head at the food, tail ahead by
one) and ask a fresh A* instance (weight `1.0`) for a path from the new head
to the new tail. -/
def canReachTailAfterShortcut (st : HamState) (foodTarget : Cell) : Bool :=
  if st.snake.length < 2 then
    true
  else
    let tempSnake := foodTarget :: st.snake.dropLast
    let newHead := foodTarget
    let newTail := tempSnake.getLast (by simp)
    match findPathAStar st.boardSize tempSnake st.obstacles newHead newTail 1 with
    | none => false
    | some p => decide (p.length > 0)

/-- `HamiltonianAlgorithm.isShortcutSafe` (HamiltonianAlgorithm.ts lines
329-354). The JavaScript `fillRatio = snakeLength / boardCells` is `NaN` on a
zero-size board and `NaN > 0.7` is false; rational division by zero gives `0`
and `0 > 0.7` is false, so the models agree. -/
def isShortcutSafe (st : HamState) (head foodTarget : Cell) : Bool :=
  let directDistance : Nat := manhattan head foodTarget
  let maxShortcutDistance : Int := ⌊(st.boardSize : ℚ) * (st.shortcutThreshold / 100)⌋
  if directDistance = 0 then
    false
  else if (directDistance : Int) > maxShortcutDistance ∧ maxShortcutDistance > 0 then
    false
  else
    let boardCells : Nat := st.boardSize * st.boardSize
    let fillRatio : ℚ := (st.snake.length : ℚ) / (boardCells : ℚ)
    if fillRatio > 7 / 10 then
      false
    else
      let estimatedLengthAfterEating : Nat := st.snake.length + 1
      let remainingSpace : Int :=
        (boardCells : Int) - (estimatedLengthAfterEating : Int) - (st.obstacles.length : Int)
      if (remainingSpace : ℚ) < (boardCells : ℚ) * (20 / 100) then
        false
      else
        canReachTailAfterShortcut st foodTarget

/-- Boolean 4-adjacency chain check (the library `Chain'` decidability
instance does not reduce in the kernel). -/
def chainAdjacentB : List Cell → Bool
  | [] => true
  | [_] => true
  | a :: b :: t => decide (Adjacent a b) && chainAdjacentB (b :: t)

/-- A valid route of the grid model: starting next to `start`, each cell
4-adjacent to its predecessor, every cell valid under the current occupancy,
ending at `goal` (the empty route is the degenerate route from `start` to
itself). This is the reference reachability notion of spec §8. -/
def RouteOk (boardSize : Nat) (snake obstacles : List Cell) (start goal : Cell)
    (r : List Cell) : Prop :=
  List.Chain' Adjacent (start :: r) ∧
    (∀ c ∈ r, isValidPosition boardSize snake obstacles c = true) ∧
    (start :: r).getLast? = some goal

/-- The key of spec §4.2's fallback rule for a candidate move: the minimum
Manhattan distance to the body segments other than the head, `⊤` when there
are none. Modelled from the spec (§4.2: "maximizes the minimum Manhattan
distance to every other body segment"). -/
def specBodyDistance (snake : List Cell) (move : Cell) : WithTop Nat :=
  match (snake.tail.map fun seg => manhattan move seg).min? with
  | none => ⊤
  | some d => (d : WithTop Nat)

/-- The first element of the list attaining the maximal key (ties broken by
encounter order). Modelled from the spec (§4.2). -/
def firstMaxBy {α : Type} [LinearOrder α] (key : Cell → α) : List Cell → Option Cell
  | [] => none
  | c :: t =>
    match firstMaxBy key t with
    | none => some c
    | some m => if key c < key m then some m else some c

/-- Spec §4.2's fallback move: the neighbor of the head that maximizes the
minimum Manhattan distance to every other body segment, ties broken by the
UP, DOWN, LEFT, RIGHT encounter order of the neighbor list. Modelled from the
spec. -/
def specFallbackMove (boardSize : Nat) (snake obstacles : List Cell) : Option Cell :=
  match snake with
  | [] => none
  | head :: _ => firstMaxBy (specBodyDistance snake) (getNeighbors boardSize snake obstacles head)

instance (boardSize : Nat) (snake obstacles : List Cell) (start goal : Cell)
    (r : List Cell) : Decidable (RouteOk boardSize snake obstacles start goal r) := by
  have key : ∀ l : List Cell, chainAdjacentB l = true ↔ List.Chain' Adjacent l := by
    intro l
    induction l with
    | nil => simp [chainAdjacentB]
    | cons a t ih =>
      cases t with
      | nil => simp [chainAdjacentB]
      | cons b t' =>
        rw [List.chain'_cons, ← ih, chainAdjacentB]
        simp
  refine decidable_of_iff (chainAdjacentB (start :: r) = true ∧
    r.all (isValidPosition boardSize snake obstacles) = true ∧
    (start :: r).getLast? = some goal) ?_
  rw [key, List.all_eq_true]
  unfold RouteOk
  simp

/-- Termination weight of a single greedy open node: visited cells weigh
`4 * 5 ^ U + 1`, unvisited ones `5 ^ U`, where `U` counts the cells of the
universe `S` not yet visited. A proof-side measure for `greedyLoop`'s fuel. -/
def greedyWeight (S v : Finset Cell) (nd : Nd) : Nat :=
  if nd.cell ∈ v then 4 * 5 ^ (S.card - v.card) + 1 else 5 ^ (S.card - v.card)

/-- Termination potential of a greedy open list: the sum of the node
weights. Strictly decreases on every `greedyLoop` iteration. -/
def greedyPot (S v : Finset Cell) (openList : List Nd) : Nat :=
  (openList.map (greedyWeight S v)).sum

/-- The random-pick fallback always yields a direction once the snake is
nonempty. -/
theorem getRandomDirection_isSome (st : AIState) (r : Nat) (h : st.snake ≠ []) :
    (getRandomDirection st r).isSome = true := by
  unfold getRandomDirection
  match hs : st.snake with
  | [] => exact absurd hs h
  | head :: restSnake =>
    cases hv : getNeighbors st.boardSize st.snake st.obstacles head with
    | nil =>
      simp only []
      repeat' split
      all_goals rfl
    | cons mv mvs =>
      simp only []
      repeat' split
      all_goals rfl

/-- Once the snake is nonempty, every branch of `getNextDirection` yields a
direction. -/
theorem getNextDirection_isSome (st : AIState) (r : Nat) (h : st.snake ≠ []) :
    (getNextDirection st r).isSome = true := by
  obtain ⟨d, hd⟩ := Option.isSome_iff_exists.mp (getRandomDirection_isSome st r h)
  unfold getNextDirection
  split
  · match hs : st.snake with
    | [] => exact absurd hs h
    | head :: restSnake =>
      simp only []
      repeat' split
      all_goals simp [hd]
  · match hs : st.snake with
    | [] => exact absurd hs h
    | head :: restSnake =>
      simp only []
      repeat' split
      all_goals simp [hd]

/-- C1. For every even boardSize ≥ 2 with no obstacles the cycle constructor
is claimed to produce a sequence of boardSize² cells, each board cell exactly
once, with every consecutive pair including the wraparound pair 4-adjacent.
At boardSize = 4 the code produces the lawn-mower sequence, which does have
length 16, covers every cell exactly once and is chain-adjacent, but it ends
at (0,3) while starting at (0,0): the wraparound pair is not 4-adjacent, so
the generated sequence is a Hamiltonian path, not the Hamiltonian cycle the
function's own name and logging claim. -/
theorem c1_even_cycle_open_at_four :
    (generateHamiltonianCycle 4).length = 16 ∧
    (generateHamiltonianCycle 4).Nodup ∧
    (allCellsList 4).all (fun c => decide (c ∈ generateHamiltonianCycle 4)) = true ∧
    chainAdjacentB (generateHamiltonianCycle 4) = true ∧
    (generateHamiltonianCycle 4).getLast? = some ⟨0, 3⟩ ∧
    (generateHamiltonianCycle 4).head? = some ⟨0, 0⟩ ∧
    ¬Adjacent ⟨0, 3⟩ ⟨0, 0⟩ := by
  decide

/-- C4. For every configuration with a snake of the data model (length ≥ 1),
`getNextDirection` returns a value, and that value is one of UP, DOWN, LEFT,
RIGHT — it never fails, falling back to cycle-following or a default or
random direction in the worst case. -/
theorem c4_getNextDirection_total (st : AIState) (r : Nat) (h : st.snake ≠ []) :
    (getNextDirection st r).map Prod.fst ∈
      [some Direction.UP, some Direction.DOWN, some Direction.LEFT, some Direction.RIGHT] := by
  obtain ⟨⟨d, st'⟩, hd⟩ := Option.isSome_iff_exists.mp (getNextDirection_isSome st r h)
  rw [hd]
  cases d <;> simp

/-- Witness for C4 at a one-segment snake with no valid moves (boxed in by
obstacles). -/
theorem c4_witness :
    ((⟨2, [⟨0, 0⟩], ⟨1, 1⟩, [⟨1, 0⟩, ⟨0, 1⟩], [], 0, .astar, ⟨1, 33⟩, []⟩ : AIState).snake ≠ [] : Prop) ∧
    (getNextDirection ⟨2, [⟨0, 0⟩], ⟨1, 1⟩, [⟨1, 0⟩, ⟨0, 1⟩], [], 0, .astar, ⟨1, 33⟩, []⟩ 0).map Prod.fst ∈
      [some Direction.UP, some Direction.DOWN, some Direction.LEFT, some Direction.RIGHT] :=
  ⟨by decide, c4_getNextDirection_total _ 0 (by decide)⟩

/-- C9. On a strategy holding a computed route with a step remaining
(`pathIndex < path.length`, which holds with `pathIndex = 0` right after the
route is computed), one call to `getNextDirection` advances `pathIndex` by
exactly one and leaves the stored path, snake, food and obstacles unchanged:
exactly one path step is consumed per call. -/
theorem c9_getNextDirection_consumes_one_step (st : AIState) (r : Nat)
    (hsnake : st.snake ≠ []) (hpath : st.path ≠ [])
    (hidx : st.pathIndex < st.path.length) :
    (getNextDirection st r).map Prod.snd = some { st with pathIndex := st.pathIndex + 1 } := by
  obtain ⟨d, hd⟩ := Option.isSome_iff_exists.mp (getRandomDirection_isSome st r hsnake)
  unfold getNextDirection
  rw [if_neg (by push_neg; exact ⟨fun h0 => hpath (List.length_eq_zero.mp h0), hidx⟩)]
  match hs : st.snake with
  | [] => exact absurd hs hsnake
  | head :: restSnake =>
    simp only []
    repeat' split
    all_goals simp [hd]

/-- Witness for C9: a freshly computed one-step route; the call consumes
exactly that step. -/
theorem c9_witness :
    (getNextDirection ⟨10, [⟨5, 5⟩, ⟨4, 5⟩], ⟨5, 6⟩, [], [⟨5, 6⟩], 0, .astar, ⟨1, 33⟩, []⟩ 0).map
        Prod.snd =
      some ⟨10, [⟨5, 5⟩, ⟨4, 5⟩], ⟨5, 6⟩, [], [⟨5, 6⟩], 1, .astar, ⟨1, 33⟩, []⟩ :=
  c9_getNextDirection_consumes_one_step _ 0 (by decide) (by decide) (by decide)

/-- C5. Whenever the snake fills more than 70% of the board, the
cycle-follower's `isShortcutSafe` returns false, whatever the configured
threshold, goal, obstacle set or other state: every `return true` path is
behind the `fillRatio > 0.7` guard. -/
theorem c5_no_shortcut_above_70_percent_fill (st : HamState) (head food : Cell)
    (hfill : 7 / 10 < (st.snake.length : ℚ) / ((st.boardSize * st.boardSize : Nat) : ℚ)) :
    isShortcutSafe st head food = false := by
  unfold isShortcutSafe
  dsimp only
  repeat' split
  all_goals rfl

/-- Witness for C5: a 2×2 board with a three-segment snake (fill ratio 3/4),
adjacent food, default threshold. -/
theorem c5_witness :
    ((7 : ℚ) / 10 < ((3 : Nat) : ℚ) / ((4 : Nat) : ℚ)) ∧
    isShortcutSafe ⟨2, [⟨0, 0⟩, ⟨1, 0⟩, ⟨1, 1⟩], ⟨0, 1⟩, [], [], 33⟩ ⟨0, 0⟩ ⟨0, 1⟩ = false :=
  ⟨by norm_num, c5_no_shortcut_above_70_percent_fill _ _ _ (by norm_num)⟩

/-- C8 counterexample. At the odd boardSize 3 with no obstacles the generator
produces the three documented blocks, but the sequence does not close: the
junction from the boustrophedon block (ending (0,1)) into the rightmost
column (starting (2,0)) is not 4-adjacent, and neither is the wraparound
pair (0,2), (0,0). (No Hamiltonian cycle exists on an odd board at all,
since a cycle in the bipartite grid graph has even length and 3² is odd.) -/
theorem c8_odd_cycle_does_not_close_at_three :
    generateOddSizeCycle 3 [] =
      [⟨0, 0⟩, ⟨1, 0⟩, ⟨1, 1⟩, ⟨0, 1⟩, ⟨2, 0⟩, ⟨2, 1⟩, ⟨2, 2⟩, ⟨1, 2⟩, ⟨0, 2⟩] ∧
    ¬Adjacent ⟨0, 1⟩ ⟨2, 0⟩ ∧
    ¬Adjacent ⟨0, 2⟩ ⟨0, 0⟩ := by
  decide

/-- The result of `firstMaxBy` is an element of the list. -/
theorem firstMaxBy_mem {α : Type} [LinearOrder α] (key : Cell → α) :
    ∀ (l : List Cell) (m : Cell), firstMaxBy key l = some m → m ∈ l := by
  intro l
  induction l with
  | nil => intro m hm; simp [firstMaxBy] at hm
  | cons c t ih =>
    intro m hm
    unfold firstMaxBy at hm
    cases ht : firstMaxBy key t with
    | none => rw [ht] at hm; simp at hm; simp [hm]
    | some m' =>
      rw [ht] at hm
      simp only [] at hm
      split at hm
      · cases hm; exact List.mem_cons_of_mem _ (ih _ ht)
      · cases hm; exact List.mem_cons_self _ _

/-- Folding the strict-improvement step of `findSafeMove`'s `reduce` from an
incumbent computes the first maximum of the list, compared once against the
incumbent. -/
theorem foldPick_eq_firstMaxBy {α : Type} [LinearOrder α] (key : Cell → α) :
    ∀ (ms : List Cell) (inc : Cell),
      ms.foldl (fun safest move => if key move > key safest then move else safest) inc =
        (match firstMaxBy key ms with
          | none => inc
          | some m => if key inc < key m then m else inc) := by
  intro ms
  induction ms with
  | nil => intro inc; rfl
  | cons c t ih =>
    intro inc
    rw [List.foldl_cons, ih]
    cases ht : firstMaxBy key t with
    | none =>
      simp only [firstMaxBy, ht, gt_iff_lt]
    | some m =>
      simp only [firstMaxBy, ht, gt_iff_lt]
      by_cases hc : key inc < key c
      · rw [if_pos hc]
        by_cases hcm : key c < key m
        · rw [if_pos hcm, if_pos hcm]
          dsimp only
          rw [if_pos (lt_trans hc hcm)]
        · rw [if_neg hcm, if_neg hcm]
          dsimp only
          rw [if_pos hc]
      · rw [if_neg hc]
        by_cases hcm : key c < key m
        · rw [if_pos hcm]
          try dsimp only
        · rw [if_neg hcm]
          dsimp only
          have hnm : ¬key inc < key m := fun hlt =>
            hcm (lt_of_le_of_lt (le_of_not_lt hc) hlt)
          rw [if_neg hnm, if_neg hc]

/-- `firstMaxBy` only depends on the order the key induces on the list's
elements. -/
theorem firstMaxBy_congr {α β : Type} [LinearOrder α] [LinearOrder β]
    (k1 : Cell → α) (k2 : Cell → β) :
    ∀ (l : List Cell), (∀ a ∈ l, ∀ b ∈ l, (k1 a < k1 b ↔ k2 a < k2 b)) →
      firstMaxBy k1 l = firstMaxBy k2 l := by
  intro l
  induction l with
  | nil => intro _; rfl
  | cons c t ih =>
    intro h
    have ht := ih fun a ha b hb => h a (List.mem_cons_of_mem _ ha) b (List.mem_cons_of_mem _ hb)
    unfold firstMaxBy
    rw [← ht]
    cases hm : firstMaxBy k1 t with
    | none => rfl
    | some m =>
      have hmem : m ∈ t := firstMaxBy_mem k1 t m hm
      have hiff := h c (List.mem_cons_self _ _) m (List.mem_cons_of_mem _ hmem)
      simp only []
      rw [if_congr hiff rfl rfl]

/-- Folding `min` over a list compares the initial accumulator with the list
minimum. -/
theorem foldl_min_eq_min? :
    ∀ (l : List Nat) (c : Nat), l.foldl min c = l.min?.elim c (min c) := by
  intro l
  induction l with
  | nil => intro c; rfl
  | cons a t ih =>
    intro c
    rw [List.foldl_cons, ih, List.min?_cons]
    cases ht : t.min? with
    | none => simp [ht]
    | some d => simp [ht, min_assoc]

/-- Folding `min` can only shrink the accumulator. -/
theorem foldl_min_le_init : ∀ (l : List Nat) (c : Nat), l.foldl min c ≤ c := by
  intro l
  induction l with
  | nil => intro c; exact le_refl c
  | cons a t ih => intro c; exact le_trans (ih (min c a)) (min_le_left c a)

/-- The sentinel-initialized weighted-minimum fold of `findSafeMove` computes
the weighted unweighted-minimum, still bounded by the initial sentinel. -/
theorem foldl_minDist_eq (w : ℚ) (hw : 0 ≤ w) (x : Cell) :
    ∀ (l : List Cell) (c : Nat) (a : ℚ),
      l.foldl (fun acc seg => min acc (heuristic w x seg)) (min a (w * (c : ℚ))) =
        min a (w * (((l.map (manhattan x)).foldl min c : Nat) : ℚ)) := by
  intro l
  induction l with
  | nil => intro c a; rfl
  | cons s t ih =>
    intro c a
    rw [List.foldl_cons]
    have h1 : min (min a (w * (c : ℚ))) (heuristic w x s) =
        min a (w * ((min c (manhattan x s) : ℕ) : ℚ)) := by
      rw [heuristic, Nat.cast_min, mul_min_of_nonneg _ _ hw, min_assoc]
    rw [h1, ih, List.map_cons, List.foldl_cons]

/-- Closed form of the code's move key when the snake has body segments. -/
theorem minDistanceToBody_eq (w : ℚ) (hw : 0 ≤ w) (snake : List Cell) (x s0 : Cell)
    (rest : List Cell) (htail : snake.tail = s0 :: rest) :
    minDistanceToBody w snake x =
      min maxSafeInteger (w * (((rest.map (manhattan x)).foldl min (manhattan x s0) : ℕ) : ℚ)) := by
  unfold minDistanceToBody
  rw [htail, List.foldl_cons]
  exact foldl_minDist_eq w hw x rest (manhattan x s0) maxSafeInteger

/-- Closed form of the code's move key when the snake has no body segments. -/
theorem minDistanceToBody_eq_max (w : ℚ) (snake : List Cell) (x : Cell)
    (htail : snake.tail = []) : minDistanceToBody w snake x = maxSafeInteger := by
  unfold minDistanceToBody
  rw [htail]
  rfl

/-- Closed form of the spec's move key when the snake has body segments. -/
theorem specBodyDistance_eq (snake : List Cell) (x s0 : Cell) (rest : List Cell)
    (htail : snake.tail = s0 :: rest) :
    specBodyDistance snake x =
      (((rest.map (manhattan x)).foldl min (manhattan x s0) : ℕ) : WithTop Nat) := by
  unfold specBodyDistance
  rw [htail, List.map_cons, List.min?_cons]
  dsimp only
  rw [← foldl_min_eq_min?]

/-- Closed form of the spec's move key when the snake has no body segments. -/
theorem specBodyDistance_eq_top (snake : List Cell) (x : Cell)
    (htail : snake.tail = []) : specBodyDistance snake x = ⊤ := by
  unfold specBodyDistance
  rw [htail]
  rfl

/-- With a positive weight that cannot push a relevant distance past the
`MAX_SAFE_INTEGER` sentinel, the code's weighted key and the spec's
unweighted key order any two moves identically. -/
theorem minDist_lt_iff_specDist_lt (w : ℚ) (hw : 0 < w) (snake : List Cell) (a b : Cell)
    (hA : ∀ seg ∈ snake.tail, w * (manhattan a seg : ℚ) ≤ maxSafeInteger)
    (hB : ∀ seg ∈ snake.tail, w * (manhattan b seg : ℚ) ≤ maxSafeInteger) :
    (minDistanceToBody w snake a < minDistanceToBody w snake b ↔
      specBodyDistance snake a < specBodyDistance snake b) := by
  cases htail : snake.tail with
  | nil =>
    rw [minDistanceToBody_eq_max w snake a htail, minDistanceToBody_eq_max w snake b htail,
      specBodyDistance_eq_top snake a htail, specBodyDistance_eq_top snake b htail]
    simp
  | cons s0 rest =>
    have hs0 : s0 ∈ snake.tail := by rw [htail]; exact List.mem_cons_self _ _
    have hDa : (rest.map (manhattan a)).foldl min (manhattan a s0) ≤ manhattan a s0 :=
      foldl_min_le_init _ _
    have hDb : (rest.map (manhattan b)).foldl min (manhattan b s0) ≤ manhattan b s0 :=
      foldl_min_le_init _ _
    have hwa : w * (((rest.map (manhattan a)).foldl min (manhattan a s0) : ℕ) : ℚ) ≤
        maxSafeInteger :=
      le_trans (mul_le_mul_of_nonneg_left (Nat.cast_le.mpr hDa) hw.le) (hA s0 hs0)
    have hwb : w * (((rest.map (manhattan b)).foldl min (manhattan b s0) : ℕ) : ℚ) ≤
        maxSafeInteger :=
      le_trans (mul_le_mul_of_nonneg_left (Nat.cast_le.mpr hDb) hw.le) (hB s0 hs0)
    rw [minDistanceToBody_eq w hw.le snake a s0 rest htail,
      minDistanceToBody_eq w hw.le snake b s0 rest htail,
      specBodyDistance_eq snake a s0 rest htail, specBodyDistance_eq snake b s0 rest htail,
      min_eq_right hwa, min_eq_right hwb, mul_lt_mul_left hw, Nat.cast_lt, Nat.cast_lt]

/-- A valid position lies inside the board. -/
theorem isValidPosition_inBounds {n : Nat} {snake obstacles : List Cell} {c : Cell}
    (h : isValidPosition n snake obstacles c = true) :
    0 ≤ c.x ∧ c.x < (n : Int) ∧ 0 ≤ c.y ∧ c.y < (n : Int) := by
  unfold isValidPosition at h
  split at h
  · exact absurd h (by simp)
  · rename_i hcond
    simp only [Bool.or_eq_true, decide_eq_true_eq, not_or] at hcond
    obtain ⟨⟨⟨h1, h2⟩, h3⟩, h4⟩ := hcond
    omega

/-- Two in-bounds cells are at Manhattan distance at most `2 * n`. -/
theorem manhattan_le_of_inBounds {n : Nat} {a b : Cell}
    (ha : 0 ≤ a.x ∧ a.x < (n : Int) ∧ 0 ≤ a.y ∧ a.y < (n : Int))
    (hb : 0 ≤ b.x ∧ b.x < (n : Int) ∧ 0 ≤ b.y ∧ b.y < (n : Int)) :
    manhattan a b ≤ 2 * n := by
  unfold manhattan
  omega

/-- C7. For a shortest-path strategy (the fallback used when `findPath`
returned null or an empty route), `findSafeMove` picks exactly the neighbor
of the head that maximizes the minimum Manhattan distance to every other body
segment, ties broken by the UP, DOWN, LEFT, RIGHT encounter order (first
maximal neighbor wins); in particular it returns a neighbor whenever one
exists. The hypotheses are the spec's own side conditions: a positive
heuristic weight (§6 tunables) small enough that a board-bounded weighted
distance stays below the `MAX_SAFE_INTEGER` sentinel, and an in-bounds snake
(data model §3). -/
theorem c7_findSafeMove_first_max_body_distance (st : AIState)
    (halg : st.algorithm ≠ Algorithm.hamiltonian)
    (hw : 0 < st.config.heuristicWeight)
    (hwb : st.config.heuristicWeight * (2 * (st.boardSize : ℚ)) ≤ maxSafeInteger)
    (hsb : ∀ c ∈ st.snake, isValidPosition st.boardSize [] [] c = true) :
    findSafeMove st = specFallbackMove st.boardSize st.snake st.obstacles := by
  obtain ⟨n, snake, food, obstacles, path, pathIndex, algorithm, config, cycle⟩ := st
  dsimp only at halg hw hwb hsb ⊢
  unfold findSafeMove specFallbackMove
  dsimp only
  cases snake with
  | nil => rfl
  | cons head restSnake =>
    dsimp only
    cases hnb : getNeighbors n (head :: restSnake) obstacles head with
    | nil => rfl
    | cons m0 ms =>
      dsimp only
      rw [if_neg fun hh => halg hh.1]
      dsimp only
      have hkey : ∀ a ∈ m0 :: ms, ∀ b ∈ m0 :: ms,
          (minDistanceToBody config.heuristicWeight (head :: restSnake) a <
              minDistanceToBody config.heuristicWeight (head :: restSnake) b ↔
            specBodyDistance (head :: restSnake) a < specBodyDistance (head :: restSnake) b) := by
        intro a ha b hb
        have hvalid : ∀ x ∈ m0 :: ms, isValidPosition n (head :: restSnake) obstacles x = true := by
          intro x hx
          rw [← hnb] at hx
          exact List.of_mem_filter hx
        have hbnd : ∀ x ∈ m0 :: ms, ∀ seg ∈ (head :: restSnake).tail,
            config.heuristicWeight * (manhattan x seg : ℚ) ≤ maxSafeInteger := by
          intro x hx seg hseg
          have hxb := isValidPosition_inBounds (hvalid x hx)
          have hsegb := isValidPosition_inBounds (hsb seg (List.mem_cons_of_mem _ hseg))
          have hman : manhattan x seg ≤ 2 * n := manhattan_le_of_inBounds hxb hsegb
          have hcast : (manhattan x seg : ℚ) ≤ 2 * (n : ℚ) := by
            have h2 : ((manhattan x seg : ℕ) : ℚ) ≤ ((2 * n : ℕ) : ℚ) := Nat.cast_le.mpr hman
            push_cast at h2
            exact h2
          exact le_trans (mul_le_mul_of_nonneg_left hcast hw.le) hwb
        exact minDist_lt_iff_specDist_lt config.heuristicWeight hw (head :: restSnake) a b
          (hbnd a ha) (hbnd b hb)
      rw [List.foldl_cons, ite_self,
        foldPick_eq_firstMaxBy (minDistanceToBody config.heuristicWeight (head :: restSnake)),
        ← firstMaxBy_congr (minDistanceToBody config.heuristicWeight (head :: restSnake))
          (specBodyDistance (head :: restSnake)) (m0 :: ms) hkey]
      conv_rhs => rw [firstMaxBy]
      cases hfm : firstMaxBy (minDistanceToBody config.heuristicWeight (head :: restSnake)) ms with
      | none => rfl
      | some m =>
        dsimp only
        rw [apply_ite Option.some]

/-- Witness for C7: head (5,5), body to the left and below-left; among the
four free neighbors, (5,6)'s nearest body segment is farthest. -/
theorem c7_witness :
    ((⟨10, [⟨5, 5⟩, ⟨4, 5⟩, ⟨4, 4⟩], ⟨9, 9⟩, [], [], 0, .astar, ⟨1, 33⟩, []⟩ : AIState).algorithm ≠
        Algorithm.hamiltonian) ∧
    findSafeMove ⟨10, [⟨5, 5⟩, ⟨4, 5⟩, ⟨4, 4⟩], ⟨9, 9⟩, [], [], 0, .astar, ⟨1, 33⟩, []⟩ =
      specFallbackMove 10 [⟨5, 5⟩, ⟨4, 5⟩, ⟨4, 4⟩] [] :=
  ⟨by decide,
    c7_findSafeMove_first_max_body_distance _ (by decide) (by norm_num) (by norm_num [maxSafeInteger])
      (by decide)⟩

/-- A search node is sound when its accumulated path is a valid 4-connected
route from the start ending at the node's own cell, with `g` counting its
length. -/
def NodeOk (boardSize : Nat) (snake obstacles : List Cell) (start : Cell) (nd : Nd) : Prop :=
  List.Chain' Adjacent (start :: nd.path) ∧
    (∀ c ∈ nd.path, isValidPosition boardSize snake obstacles c = true) ∧
    (start :: nd.path).getLast? = some nd.cell ∧
    nd.g = (nd.path.length : Int)

/-- Members of `getNeighbors` are valid and 4-adjacent to the queried cell. -/
theorem mem_getNeighbors {boardSize : Nat} {snake obstacles : List Cell} {pos nb : Cell}
    (h : nb ∈ getNeighbors boardSize snake obstacles pos) :
    isValidPosition boardSize snake obstacles nb = true ∧ Adjacent pos nb := by
  unfold getNeighbors at h
  have hmem := List.mem_of_mem_filter h
  have hval := List.of_mem_filter h
  refine ⟨hval, ?_⟩
  simp only [List.mem_cons, List.not_mem_nil, or_false] at hmem
  unfold Adjacent
  rcases hmem with h | h | h | h <;> subst h <;> dsimp only <;> omega

/-- A sound node for the goal cell yields a valid route. -/
theorem NodeOk.routeOk {boardSize : Nat} {snake obstacles : List Cell} {start goal : Cell}
    {nd : Nd} (h : NodeOk boardSize snake obstacles start nd) (hx : nd.x = goal.x)
    (hy : nd.y = goal.y) : RouteOk boardSize snake obstacles start goal nd.path := by
  obtain ⟨h1, h2, h3, _⟩ := h
  have hcell : nd.cell = goal := by
    unfold Nd.cell
    rw [hx, hy]
  exact ⟨h1, h2, by rw [h3, hcell]⟩

/-- The node pushed for a neighbor of a sound node is sound. -/
theorem NodeOk.push {boardSize : Nat} {snake obstacles : List Cell} {start nb : Cell}
    {cur : Nd} (h : NodeOk boardSize snake obstacles start cur)
    (hval : isValidPosition boardSize snake obstacles nb = true)
    (hadj : Adjacent cur.cell nb) (g' : Int) (hg : g' = cur.g + 1) (h' f' : ℚ) :
    NodeOk boardSize snake obstacles start ⟨nb.x, nb.y, g', h', f', cur.path ++ [nb]⟩ := by
  obtain ⟨h1, h2, h3, h4⟩ := h
  refine ⟨?_, ?_, ?_, ?_⟩
  · rw [show start :: (cur.path ++ [nb]) = (start :: cur.path) ++ [nb] by rfl,
      List.chain'_append]
    refine ⟨h1, List.chain'_singleton nb, ?_⟩
    intro x hx y hy
    rw [h3] at hx
    cases hx
    cases hy
    exact hadj
  · intro c hc
    rcases List.mem_append.mp hc with hc | hc
    · exact h2 c hc
    · rw [List.mem_singleton.mp hc]
      exact hval
  · show ((start :: cur.path) ++ [nb]).getLast? = some (⟨nb.x, nb.y⟩ : Cell)
    rw [List.getLast?_append]
    rfl
  · simp [hg, h4]

/-- Stable insertion is a permutation of consing. -/
theorem insertSorted_perm (le : Nd → Nd → Bool) (a : Nd) :
    ∀ l : List Nd, (insertSorted le a l).Perm (a :: l) := by
  intro l
  induction l with
  | nil => exact List.Perm.refl _
  | cons b t ih =>
    unfold insertSorted
    split
    · exact (ih.cons b).trans (List.Perm.swap a b t)
    · exact List.Perm.refl _

/-- Sorting permutes the open list. -/
theorem sortNodes_perm (le : Nd → Nd → Bool) : ∀ l : List Nd, (sortNodes le l).Perm l := by
  intro l
  induction l with
  | nil => exact List.Perm.refl _
  | cons a t ih => exact (insertSorted_perm le a (sortNodes le t)).trans (ih.cons a)

/-- Sorting preserves membership. -/
theorem mem_sortNodes {le : Nd → Nd → Bool} {l : List Nd} {nd : Nd} :
    nd ∈ sortNodes le l ↔ nd ∈ l :=
  (sortNodes_perm le l).mem_iff

/-- A member of `updateFirst p f l` is an old member or the image under `f`
of an old member satisfying `p`. -/
theorem mem_updateFirst {p : Nd → Bool} {f : Nd → Nd} :
    ∀ {l : List Nd} {nd : Nd}, nd ∈ updateFirst p f l →
      nd ∈ l ∨ ∃ nd' ∈ l, p nd' = true ∧ nd = f nd' := by
  intro l
  induction l with
  | nil => intro nd h; exact absurd h (List.not_mem_nil nd)
  | cons a t ih =>
    intro nd h
    unfold updateFirst at h
    split at h
    · rcases List.mem_cons.mp h with h | h
      · exact Or.inr ⟨a, List.mem_cons_self _ _, by assumption, h⟩
      · exact Or.inl (List.mem_cons_of_mem _ h)
    · rcases List.mem_cons.mp h with h | h
      · exact Or.inl (by rw [h]; exact List.mem_cons_self _ _)
      · rcases ih h with h | ⟨nd', hnd', hp, he⟩
        · exact Or.inl (List.mem_cons_of_mem _ h)
        · exact Or.inr ⟨nd', List.mem_cons_of_mem _ hnd', hp, he⟩

/-- The BFS enqueue step preserves node soundness. -/
theorem bfsEnqueue_nodeOk {boardSize : Nat} {snake obstacles : List Cell} {start : Cell}
    {cur : Nd} (hcur : NodeOk boardSize snake obstacles start cur) :
    ∀ (nbs : List Cell) (queue : List Nd) (visited : Finset Cell),
      (∀ nb ∈ nbs, isValidPosition boardSize snake obstacles nb = true ∧ Adjacent cur.cell nb) →
      (∀ nd ∈ queue, NodeOk boardSize snake obstacles start nd) →
      ∀ nd ∈ (bfsEnqueue cur nbs queue visited).1, NodeOk boardSize snake obstacles start nd := by
  intro nbs
  induction nbs with
  | nil => intro queue visited _ hq nd hnd; exact hq nd hnd
  | cons nb t ih =>
    intro queue visited hnb hq nd hnd
    unfold bfsEnqueue at hnd
    split at hnd
    · exact ih queue visited (fun x hx => hnb x (List.mem_cons_of_mem _ hx)) hq nd hnd
    · refine ih _ _ (fun x hx => hnb x (List.mem_cons_of_mem _ hx)) ?_ nd hnd
      intro nd' hnd'
      rcases List.mem_append.mp hnd' with h | h
      · exact hq nd' h
      · rw [List.mem_singleton.mp h]
        exact hcur.push (hnb nb (List.mem_cons_self _ _)).1 (hnb nb (List.mem_cons_self _ _)).2
          _ rfl 0 0

/-- The A* expansion step preserves node soundness. -/
theorem aStarExpand_nodeOk {boardSize : Nat} {snake obstacles : List Cell} {start goal : Cell}
    {w : ℚ} {cur : Nd} {closed : Finset Cell}
    (hcur : NodeOk boardSize snake obstacles start cur) :
    ∀ (nbs : List Cell) (openList : List Nd),
      (∀ nb ∈ nbs, isValidPosition boardSize snake obstacles nb = true ∧ Adjacent cur.cell nb) →
      (∀ nd ∈ openList, NodeOk boardSize snake obstacles start nd) →
      ∀ nd ∈ aStarExpand w goal cur closed nbs openList,
        NodeOk boardSize snake obstacles start nd := by
  intro nbs
  induction nbs with
  | nil => intro openList _ ho nd hnd; exact ho nd hnd
  | cons nb t ih =>
    intro openList hnb ho nd hnd
    unfold aStarExpand at hnd
    have hnbt := fun x hx => hnb x (List.mem_cons_of_mem _ hx)
    have hval := (hnb nb (List.mem_cons_self _ _)).1
    have hadj := (hnb nb (List.mem_cons_self _ _)).2
    split at hnd
    · exact ih openList hnbt ho nd hnd
    · split at hnd
      · refine ih _ hnbt ?_ nd hnd
        intro nd' hnd'
        rcases List.mem_append.mp hnd' with h | h
        · exact ho nd' h
        · rw [List.mem_singleton.mp h]
          exact hcur.push hval hadj _ rfl _ _
      · rename_i ex hex
        split at hnd
        · refine ih _ hnbt ?_ nd hnd
          intro nd' hnd'
          rcases mem_updateFirst hnd' with h | ⟨nd'', hnd'', hp, he⟩
          · exact ho nd' h
          · have hxy : nd''.x = nb.x ∧ nd''.y = nb.y := by
              simpa using hp
            obtain ⟨x, y, g, hh, ff, path⟩ := nd''
            obtain ⟨hx, hy⟩ := hxy
            dsimp only at hx hy
            subst hx
            subst hy
            rw [he]
            exact hcur.push hval hadj _ rfl _ _
        · exact ih openList hnbt ho nd hnd

/-- The Dijkstra expansion step preserves node soundness. -/
theorem dijkstraExpand_nodeOk {boardSize : Nat} {snake obstacles : List Cell} {start : Cell}
    {cur : Nd} {closed : Finset Cell}
    (hcur : NodeOk boardSize snake obstacles start cur) :
    ∀ (nbs : List Cell) (openList : List Nd),
      (∀ nb ∈ nbs, isValidPosition boardSize snake obstacles nb = true ∧ Adjacent cur.cell nb) →
      (∀ nd ∈ openList, NodeOk boardSize snake obstacles start nd) →
      ∀ nd ∈ dijkstraExpand cur closed nbs openList,
        NodeOk boardSize snake obstacles start nd := by
  intro nbs
  induction nbs with
  | nil => intro openList _ ho nd hnd; exact ho nd hnd
  | cons nb t ih =>
    intro openList hnb ho nd hnd
    unfold dijkstraExpand at hnd
    have hnbt := fun x hx => hnb x (List.mem_cons_of_mem _ hx)
    have hval := (hnb nb (List.mem_cons_self _ _)).1
    have hadj := (hnb nb (List.mem_cons_self _ _)).2
    split at hnd
    · exact ih openList hnbt ho nd hnd
    · split at hnd
      · refine ih _ hnbt ?_ nd hnd
        intro nd' hnd'
        rcases List.mem_append.mp hnd' with h | h
        · exact ho nd' h
        · rw [List.mem_singleton.mp h]
          exact hcur.push hval hadj _ rfl _ _
      · rename_i ex hex
        split at hnd
        · refine ih _ hnbt ?_ nd hnd
          intro nd' hnd'
          rcases mem_updateFirst hnd' with h | ⟨nd'', hnd'', hp, he⟩
          · exact ho nd' h
          · have hxy : nd''.x = nb.x ∧ nd''.y = nb.y := by
              simpa using hp
            obtain ⟨x, y, g, hh, ff, path⟩ := nd''
            obtain ⟨hx, hy⟩ := hxy
            dsimp only at hx hy
            subst hx
            subst hy
            rw [he]
            exact hcur.push hval hadj _ rfl _ _
        · exact ih openList hnbt ho nd hnd

/-- The greedy expansion step preserves node soundness. -/
theorem greedyExpand_nodeOk {boardSize : Nat} {snake obstacles : List Cell} {start goal : Cell}
    {w : ℚ} {cur : Nd} {visited : Finset Cell}
    (hcur : NodeOk boardSize snake obstacles start cur) :
    ∀ (nbs : List Cell) (openList : List Nd),
      (∀ nb ∈ nbs, isValidPosition boardSize snake obstacles nb = true ∧ Adjacent cur.cell nb) →
      (∀ nd ∈ openList, NodeOk boardSize snake obstacles start nd) →
      ∀ nd ∈ greedyExpand w goal cur visited nbs openList,
        NodeOk boardSize snake obstacles start nd := by
  intro nbs
  induction nbs with
  | nil => intro openList _ ho nd hnd; exact ho nd hnd
  | cons nb t ih =>
    intro openList hnb ho nd hnd
    unfold greedyExpand at hnd
    have hnbt := fun x hx => hnb x (List.mem_cons_of_mem _ hx)
    split at hnd
    · exact ih openList hnbt ho nd hnd
    · refine ih _ hnbt ?_ nd hnd
      intro nd' hnd'
      rcases List.mem_append.mp hnd' with h | h
      · exact ho nd' h
      · rw [List.mem_singleton.mp h]
        exact hcur.push (hnb nb (List.mem_cons_self _ _)).1 (hnb nb (List.mem_cons_self _ _)).2
          _ rfl _ _

/-- The initial search node (the start cell with an empty parent chain) is
sound. -/
theorem startNode_nodeOk (boardSize : Nat) (snake obstacles : List Cell) (start : Cell)
    (h0 f0 : ℚ) : NodeOk boardSize snake obstacles start ⟨start.x, start.y, 0, h0, f0, []⟩ :=
  ⟨List.chain'_singleton _, by simp, rfl, rfl⟩

/-- A valid route consists of valid cells. -/
theorem RouteOk.all_valid {boardSize : Nat} {snake obstacles : List Cell}
    {start goal : Cell} {r : List Cell} (h : RouteOk boardSize snake obstacles start goal r) :
    r.all (isValidPosition boardSize snake obstacles) = true :=
  List.all_eq_true.mpr fun c hc => h.2.1 c hc

/-- Any route the BFS loop returns is a valid route to the goal, provided all
queued nodes are sound. -/
theorem bfsLoop_sound {boardSize : Nat} {snake obstacles : List Cell} {start goal : Cell} :
    ∀ (fuel : Nat) (q : List Nd) (v : Finset Cell) (p : List Cell),
      (∀ nd ∈ q, NodeOk boardSize snake obstacles start nd) →
      bfsLoop boardSize snake obstacles goal fuel q v = some p →
      RouteOk boardSize snake obstacles start goal p := by
  intro fuel
  induction fuel with
  | zero =>
    intro q v p _ h
    rw [bfsLoop] at h
    exact absurd h (by simp)
  | succ fuel ih =>
    intro q v p hq hres
    match q with
    | [] =>
      rw [bfsLoop] at hres
      exact absurd hres (by simp)
    | cur :: rest =>
      rw [bfsLoop] at hres
      split at hres
      · rename_i hgoal
        cases hres
        exact (hq cur (List.mem_cons_self _ _)).routeOk hgoal.1 hgoal.2
      · exact ih _ _ p
          (bfsEnqueue_nodeOk (hq cur (List.mem_cons_self _ _)) _ rest v
            (fun nb hnb => mem_getNeighbors hnb)
            (fun nd hnd => hq nd (List.mem_cons_of_mem _ hnd)))
          hres

/-- Any route the A* loop returns is a valid route to the goal, provided all
open nodes are sound. -/
theorem aStarLoop_sound {boardSize : Nat} {snake obstacles : List Cell} {start goal : Cell}
    {w : ℚ} :
    ∀ (fuel : Nat) (openList : List Nd) (closed : Finset Cell) (p : List Cell),
      (∀ nd ∈ openList, NodeOk boardSize snake obstacles start nd) →
      (aStarLoop boardSize snake obstacles goal w fuel openList closed).1 = some p →
      RouteOk boardSize snake obstacles start goal p := by
  intro fuel
  induction fuel with
  | zero =>
    intro openList closed p _ h
    rw [aStarLoop] at h
    exact absurd h (by simp)
  | succ fuel ih =>
    intro openList closed p ho hres
    rw [aStarLoop] at hres
    split at hres
    · exact absurd hres (by simp)
    · rename_i cur rest hsort
      have hall : ∀ nd ∈ cur :: rest, NodeOk boardSize snake obstacles start nd := by
        intro nd hnd
        exact ho nd (mem_sortNodes.mp (hsort ▸ hnd))
      dsimp only at hres
      split at hres
      · rename_i hgoal
        simp only [Prod.fst] at hres
        cases hres
        exact (hall cur (List.mem_cons_self _ _)).routeOk hgoal.1 hgoal.2
      · exact ih _ _ p
          (aStarExpand_nodeOk (hall cur (List.mem_cons_self _ _)) _ rest
            (fun nb hnb => mem_getNeighbors hnb)
            (fun nd hnd => hall nd (List.mem_cons_of_mem _ hnd)))
          hres

/-- Any route the Dijkstra loop returns is a valid route to the goal,
provided all open nodes are sound. -/
theorem dijkstraLoop_sound {boardSize : Nat} {snake obstacles : List Cell} {start goal : Cell} :
    ∀ (fuel : Nat) (openList : List Nd) (closed : Finset Cell) (p : List Cell),
      (∀ nd ∈ openList, NodeOk boardSize snake obstacles start nd) →
      (dijkstraLoop boardSize snake obstacles goal fuel openList closed).1 = some p →
      RouteOk boardSize snake obstacles start goal p := by
  intro fuel
  induction fuel with
  | zero =>
    intro openList closed p _ h
    rw [dijkstraLoop] at h
    exact absurd h (by simp)
  | succ fuel ih =>
    intro openList closed p ho hres
    rw [dijkstraLoop] at hres
    split at hres
    · exact absurd hres (by simp)
    · rename_i cur rest hsort
      have hall : ∀ nd ∈ cur :: rest, NodeOk boardSize snake obstacles start nd := by
        intro nd hnd
        exact ho nd (mem_sortNodes.mp (hsort ▸ hnd))
      dsimp only at hres
      split at hres
      · rename_i hgoal
        simp only [Prod.fst] at hres
        cases hres
        exact (hall cur (List.mem_cons_self _ _)).routeOk hgoal.1 hgoal.2
      · exact ih _ _ p
          (dijkstraExpand_nodeOk (hall cur (List.mem_cons_self _ _)) _ rest
            (fun nb hnb => mem_getNeighbors hnb)
            (fun nd hnd => hall nd (List.mem_cons_of_mem _ hnd)))
          hres

/-- Any route the greedy loop returns is a valid route to the goal, provided
all open nodes are sound. -/
theorem greedyLoop_sound {boardSize : Nat} {snake obstacles : List Cell} {start goal : Cell}
    {w : ℚ} :
    ∀ (fuel : Nat) (openList : List Nd) (visited : Finset Cell) (p : List Cell),
      (∀ nd ∈ openList, NodeOk boardSize snake obstacles start nd) →
      greedyLoop boardSize snake obstacles goal w fuel openList visited = some p →
      RouteOk boardSize snake obstacles start goal p := by
  intro fuel
  induction fuel with
  | zero =>
    intro openList visited p _ h
    rw [greedyLoop] at h
    exact absurd h (by simp)
  | succ fuel ih =>
    intro openList visited p ho hres
    rw [greedyLoop] at hres
    split at hres
    · exact absurd hres (by simp)
    · rename_i cur rest hsort
      have hall : ∀ nd ∈ cur :: rest, NodeOk boardSize snake obstacles start nd := by
        intro nd hnd
        exact ho nd (mem_sortNodes.mp (hsort ▸ hnd))
      dsimp only at hres
      split at hres
      · rename_i hgoal
        cases hres
        exact (hall cur (List.mem_cons_self _ _)).routeOk hgoal.1 hgoal.2
      · exact ih _ _ p
          (greedyExpand_nodeOk (hall cur (List.mem_cons_self _ _)) _ rest
            (fun nb hnb => mem_getNeighbors hnb)
            (fun nd hnd => hall nd (List.mem_cons_of_mem _ hnd)))
          hres

/-- C2. Whenever the BFS, A*, greedy or Dijkstra `findPath` returns a
non-null route, every cell of the route is valid: inside the board, not an
obstacle, and not a snake segment other than the tail. Every cell a search
pushes comes from `getNeighbors`, which filters by `isValidPosition`. -/
theorem c2_returned_routes_are_valid (boardSize : Nat) (snake obstacles : List Cell)
    (start goal : Cell) (w : ℚ) (r : List Cell) :
    (findPathBFS boardSize snake obstacles start goal = some r →
      r.all (isValidPosition boardSize snake obstacles) = true) ∧
    (findPathAStar boardSize snake obstacles start goal w = some r →
      r.all (isValidPosition boardSize snake obstacles) = true) ∧
    (findPathGreedy boardSize snake obstacles start goal w = some r →
      r.all (isValidPosition boardSize snake obstacles) = true) ∧
    (findPathDijkstra boardSize snake obstacles start goal = some r →
      r.all (isValidPosition boardSize snake obstacles) = true) := by
  have hinit : ∀ h0 f0 : ℚ, ∀ nd ∈ [(⟨start.x, start.y, 0, h0, f0, []⟩ : Nd)],
      NodeOk boardSize snake obstacles start nd := by
    intro h0 f0 nd hnd
    rw [List.mem_singleton.mp hnd]
    exact startNode_nodeOk boardSize snake obstacles start h0 f0
  refine ⟨fun h => ?_, fun h => ?_, fun h => ?_, fun h => ?_⟩
  · exact (bfsLoop_sound _ _ _ r (hinit 0 0) h).all_valid
  · exact (aStarLoop_sound _ _ _ r (hinit _ _) h).all_valid
  · exact (greedyLoop_sound _ _ _ r (hinit _ _) h).all_valid
  · exact (dijkstraLoop_sound _ _ _ r (hinit 0 0) h).all_valid

/-- Witness for C2: a BFS route on a 3×3 board, checked valid. -/
theorem c2_witness :
    ([(⟨1, 0⟩ : Cell), ⟨2, 0⟩]).all (isValidPosition 3 [⟨0, 0⟩] []) = true :=
  (c2_returned_routes_are_valid 3 [⟨0, 0⟩] [] ⟨0, 0⟩ ⟨2, 0⟩ 1 [⟨1, 0⟩, ⟨2, 0⟩]).1 (by decide)

/-- With weight zero the heuristic vanishes. -/
theorem heuristic_zero (a b : Cell) : heuristic 0 a b = 0 := by
  unfold heuristic
  ring

/-- Stable insertion only consults the comparator between the inserted node
and list members. -/
theorem insertSorted_congr (le1 le2 : Nd → Nd → Bool) (a : Nd) :
    ∀ l : List Nd, (∀ b ∈ l, le1 b a = le2 b a) →
      insertSorted le1 a l = insertSorted le2 a l := by
  intro l
  induction l with
  | nil => intro _; rfl
  | cons b t ih =>
    intro h
    unfold insertSorted
    rw [h b (List.mem_cons_self _ _), ih fun x hx => h x (List.mem_cons_of_mem _ hx)]

/-- Sorting only consults the comparator between list members. -/
theorem sortNodes_congr (le1 le2 : Nd → Nd → Bool) :
    ∀ l : List Nd, (∀ a ∈ l, ∀ b ∈ l, le1 a b = le2 a b) →
      sortNodes le1 l = sortNodes le2 l := by
  intro l
  induction l with
  | nil => intro _; rfl
  | cons a t ih =>
    intro h
    unfold sortNodes
    rw [ih fun x hx y hy => h x (List.mem_cons_of_mem _ hx) y (List.mem_cons_of_mem _ hy)]
    refine insertSorted_congr le1 le2 a _ fun b hb => ?_
    have hbt : b ∈ t := (sortNodes_perm le2 t).mem_iff.mp hb
    exact h b (List.mem_cons_of_mem _ hbt) a (List.mem_cons_self _ _)

/-- `updateFirst` only applies the update to a matching member. -/
theorem updateFirst_congr (p : Nd → Bool) (f1 f2 : Nd → Nd) :
    ∀ l : List Nd, (∀ nd ∈ l, p nd = true → f1 nd = f2 nd) →
      updateFirst p f1 l = updateFirst p f2 l := by
  intro l
  induction l with
  | nil => intro _; rfl
  | cons a t ih =>
    intro h
    unfold updateFirst
    split
    · rename_i hp
      rw [h a (List.mem_cons_self _ _) hp]
    · rw [ih fun x hx hp => h x (List.mem_cons_of_mem _ hx) hp]

/-- With weight zero, A* expansion coincides with Dijkstra expansion and
keeps every open node's heuristic zero and its `f` equal to its `g`. -/
theorem aStarExpand_zero_eq_dijkstra (goal : Cell) (cur : Nd) (closed : Finset Cell) :
    ∀ (nbs : List Cell) (openList : List Nd),
      (∀ nd ∈ openList, nd.h = 0 ∧ nd.f = (nd.g : ℚ)) →
      aStarExpand 0 goal cur closed nbs openList = dijkstraExpand cur closed nbs openList ∧
        (∀ nd ∈ aStarExpand 0 goal cur closed nbs openList, nd.h = 0 ∧ nd.f = (nd.g : ℚ)) := by
  intro nbs
  induction nbs with
  | nil =>
    intro openList ho
    exact ⟨rfl, ho⟩
  | cons nb t ih =>
    intro openList ho
    by_cases hmem : nb ∈ closed
    · rw [aStarExpand, dijkstraExpand, if_pos hmem, if_pos hmem]
      exact ih openList ho
    · rw [aStarExpand, dijkstraExpand, if_neg hmem, if_neg hmem]
      cases hfind : openList.find? fun n => n.x = nb.x && n.y = nb.y with
      | none =>
        dsimp only
        have heq : (⟨nb.x, nb.y, cur.g + 1, heuristic 0 nb goal,
            ((cur.g + 1 : Int) : ℚ) + heuristic 0 nb goal, cur.path ++ [nb]⟩ : Nd) =
            ⟨nb.x, nb.y, cur.g + 1, 0, ((cur.g + 1 : Int) : ℚ), cur.path ++ [nb]⟩ := by
          rw [heuristic_zero, add_zero]
        rw [heq]
        have hpush : ∀ nd ∈ openList ++
            [(⟨nb.x, nb.y, cur.g + 1, 0, ((cur.g + 1 : Int) : ℚ), cur.path ++ [nb]⟩ : Nd)],
            nd.h = 0 ∧ nd.f = (nd.g : ℚ) := by
          intro nd hnd
          rcases List.mem_append.mp hnd with h | h
          · exact ho nd h
          · rw [List.mem_singleton.mp h]
            exact ⟨rfl, rfl⟩
        exact ih _ hpush
      | some ex =>
        dsimp only
        by_cases hrel : cur.g + 1 < ex.g
        · rw [if_pos hrel, if_pos hrel]
          have hupd : updateFirst (fun n => n.x = nb.x && n.y = nb.y)
              (fun n => { n with
                g := cur.g + 1
                f := ((cur.g + 1 : Int) : ℚ) + n.h
                path := cur.path ++ [nb] }) openList =
              updateFirst (fun n => n.x = nb.x && n.y = nb.y)
              (fun n => { n with
                g := cur.g + 1
                f := ((cur.g + 1 : Int) : ℚ)
                path := cur.path ++ [nb] }) openList := by
            refine updateFirst_congr _ _ _ openList fun nd hnd _ => ?_
            have hh := (ho nd hnd).1
            simp [hh]
          rw [hupd]
          have hupd2 : ∀ nd ∈ updateFirst (fun n => n.x = nb.x && n.y = nb.y)
              (fun n => { n with
                g := cur.g + 1
                f := ((cur.g + 1 : Int) : ℚ)
                path := cur.path ++ [nb] }) openList,
              nd.h = 0 ∧ nd.f = (nd.g : ℚ) := by
            intro nd hnd
            rcases mem_updateFirst hnd with h | ⟨nd', hnd', _, he⟩
            · exact ho nd h
            · rw [he]
              exact ⟨(ho nd' hnd').1, rfl⟩
          exact ih _ hupd2
        · rw [if_neg hrel, if_neg hrel]
          exact ih openList ho

/-- With weight zero every open node keeps `h = 0` and `f = g`, and the A*
main loop is step-for-step the Dijkstra main loop: the sort keys coincide, so
the same node is popped, closed and expanded on both sides. -/
theorem aStarLoop_zero_eq_dijkstra {boardSize : Nat} {snake obstacles : List Cell}
    {goal : Cell} :
    ∀ (fuel : Nat) (openList : List Nd) (closed : Finset Cell),
      (∀ nd ∈ openList, nd.h = 0 ∧ nd.f = (nd.g : ℚ)) →
      aStarLoop boardSize snake obstacles goal 0 fuel openList closed =
        dijkstraLoop boardSize snake obstacles goal fuel openList closed := by
  intro fuel
  induction fuel with
  | zero =>
    intro openList closed _
    rw [aStarLoop, dijkstraLoop]
  | succ fuel ih =>
    intro openList closed ho
    rw [aStarLoop, dijkstraLoop]
    have hsort : sortNodes (fun a b => decide (a.f ≤ b.f)) openList =
        sortNodes (fun a b => decide (a.g ≤ b.g)) openList := by
      refine sortNodes_congr _ _ openList fun a ha b hb => ?_
      rw [(ho a ha).2, (ho b hb).2]
      exact decide_eq_decide.mpr Int.cast_le
    rw [hsort]
    cases hs : sortNodes (fun a b => decide (a.g ≤ b.g)) openList with
    | nil => rfl
    | cons cur rest =>
      dsimp only
      split
      · rfl
      · have hmem : ∀ nd ∈ cur :: rest, nd.h = 0 ∧ nd.f = (nd.g : ℚ) := fun nd hnd =>
          ho nd (mem_sortNodes.mp (hs ▸ hnd))
        have hexp := aStarExpand_zero_eq_dijkstra goal cur (insert cur.cell closed)
          (getNeighbors boardSize snake obstacles cur.cell) rest
          (fun nd h => hmem nd (List.mem_cons_of_mem _ h))
        rw [hexp.1]
        exact ih _ _ (hexp.1 ▸ hexp.2)

/-- With weight zero the instrumented A* search coincides with the
instrumented Dijkstra search, result and closed set alike. -/
theorem aStarSearch_zero_eq_dijkstra (boardSize : Nat) (snake obstacles : List Cell)
    (start goal : Cell) :
    aStarSearch boardSize snake obstacles start goal 0 =
      dijkstraSearch boardSize snake obstacles start goal := by
  unfold aStarSearch dijkstraSearch
  have hstart : (⟨start.x, start.y, 0, heuristic 0 start goal, heuristic 0 start goal, []⟩ :
      Nd) = ⟨start.x, start.y, 0, 0, 0, []⟩ := by
    rw [heuristic_zero]
  rw [hstart]
  refine aStarLoop_zero_eq_dijkstra _ _ _ fun nd hnd => ?_
  rw [List.mem_singleton.mp hnd]
  exact ⟨rfl, by norm_num⟩

/-- C6. A* run with `heuristicWeight = 0` explores at least as many nodes as
Dijkstra on the same input (in fact exactly as many: the runs coincide), and
returns a route of exactly the same length whenever Dijkstra returns one (in
fact the identical route). -/
theorem c6_astar_zero_weight_matches_dijkstra (boardSize : Nat) (snake obstacles : List Cell)
    (start goal : Cell) :
    (aStarSearch boardSize snake obstacles start goal 0).2.card ≥
      (dijkstraSearch boardSize snake obstacles start goal).2.card ∧
    (aStarSearch boardSize snake obstacles start goal 0).1.map List.length =
      (dijkstraSearch boardSize snake obstacles start goal).1.map List.length := by
  rw [aStarSearch_zero_eq_dijkstra]
  exact ⟨le_refl _, rfl⟩

/-- A valid position is one of the board's cells. -/
theorem valid_mem_allCells {boardSize : Nat} {snake obstacles : List Cell} {c : Cell}
    (h : isValidPosition boardSize snake obstacles c = true) : c ∈ allCells boardSize := by
  obtain ⟨h1, h2, h3, h4⟩ := isValidPosition_inBounds h
  rw [allCells, List.mem_toFinset]
  simp only [allCellsList, List.mem_flatMap, List.mem_map, List.mem_range]
  refine ⟨c.y.toNat, by omega, c.x.toNat, by omega, ?_⟩
  cases c
  simp only [Cell.mk.injEq]
  dsimp only at h1 h2 h3 h4
  constructor <;> omega

/-- The board's cell list has exactly `boardSize²` entries. -/
theorem allCellsList_length (boardSize : Nat) :
    (allCellsList boardSize).length = boardSize * boardSize := by
  simp only [allCellsList, List.length_flatMap]
  have h : (List.map (List.length ∘ fun (y : Nat) =>
        List.map (fun (x : Nat) => (⟨(x : Int), (y : Int)⟩ : Cell)) (List.range boardSize))
        (List.range boardSize)) = List.map (fun (_ : Nat) => boardSize) (List.range boardSize) :=
    List.map_congr_left (fun y _ => by simp)
  rw [h, List.map_const', List.sum_replicate, List.length_range, smul_eq_mul]

/-- The board has at most `boardSize²` cells. -/
theorem allCells_card_le (boardSize : Nat) : (allCells boardSize).card ≤ boardSize * boardSize := by
  rw [allCells]
  exact le_trans (List.toFinset_card_le _) (le_of_eq (allCellsList_length boardSize))

/-- A valid cell adjacent to `pos` appears in `getNeighbors pos`. -/
theorem adjacent_mem_getNeighbors {boardSize : Nat} {snake obstacles : List Cell}
    {pos c : Cell} (hval : isValidPosition boardSize snake obstacles c = true)
    (hadj : Adjacent pos c) : c ∈ getNeighbors boardSize snake obstacles pos := by
  unfold getNeighbors
  refine List.mem_filter.mpr ⟨?_, hval⟩
  unfold Adjacent at hadj
  have hcases : c = (⟨pos.x, pos.y - 1⟩ : Cell) ∨ c = ⟨pos.x, pos.y + 1⟩ ∨
      c = ⟨pos.x - 1, pos.y⟩ ∨ c = ⟨pos.x + 1, pos.y⟩ := by
    obtain ⟨cx, cy⟩ := c
    obtain ⟨px, py⟩ := pos
    simp only [Cell.mk.injEq]
    dsimp only at hadj
    omega
  rcases hcases with h | h | h | h <;> rw [h] <;> simp

/-- Once the expanded set contains the start, is closed under valid
neighbors, and misses the goal, no valid route from start to goal exists. -/
theorem closed_blocks_routes {boardSize : Nat} {snake obstacles : List Cell}
    {goal : Cell} {done : Finset Cell}
    (hgoal : goal ∉ done)
    (hclosure : ∀ z ∈ done, ∀ c ∈ getNeighbors boardSize snake obstacles z, c ∈ done) :
    ∀ (r : List Cell) (start : Cell), start ∈ done →
      ¬RouteOk boardSize snake obstacles start goal r := by
  intro r
  induction r with
  | nil =>
    intro start hstart hroute
    have : start = goal := by
      have := hroute.2.2
      simpa using this
    exact hgoal (this ▸ hstart)
  | cons c r' ih =>
    intro start hstart hroute
    obtain ⟨hchain, hvalid, hlast⟩ := hroute
    have hadj : Adjacent start c := (List.chain'_cons.mp hchain).1
    have hcv : isValidPosition boardSize snake obstacles c = true :=
      hvalid c (List.mem_cons_self _ _)
    have hc : c ∈ done :=
      hclosure start hstart c (adjacent_mem_getNeighbors hcv hadj)
    refine ih c hc ⟨(List.chain'_cons.mp hchain).2, ?_, ?_⟩
    · intro x hx
      exact hvalid x (List.mem_cons_of_mem _ hx)
    · simpa using hlast

/-- Splitting a nonempty route at its final cell. -/
theorem RouteOk.snoc_decomp {boardSize : Nat} {snake obstacles : List Cell}
    {start goal c : Cell} {r : List Cell}
    (h : RouteOk boardSize snake obstacles start goal (r ++ [c])) :
    c = goal ∧ isValidPosition boardSize snake obstacles c = true ∧
      ∃ z, (start :: r).getLast? = some z ∧ RouteOk boardSize snake obstacles start z r ∧
        Adjacent z c := by
  obtain ⟨hchain, hvalid, hlast⟩ := h
  have hgoal : c = goal := by
    have : (start :: (r ++ [c])).getLast? = some c := by
      rw [show start :: (r ++ [c]) = (start :: r) ++ [c] by rfl, List.getLast?_append]
      rfl
    rw [this] at hlast
    exact Option.some.inj hlast
  have hchain' := List.chain'_append.mp
    (show List.Chain' Adjacent ((start :: r) ++ [c]) from hchain)
  obtain ⟨z, hz⟩ := Option.isSome_iff_exists.mp (List.getLast?_isSome.mpr (by simp) :
    (start :: r).getLast?.isSome = true)
  refine ⟨hgoal, hvalid c (by simp), z, hz, ⟨hchain'.1, ?_, hz⟩, ?_⟩
  · intro x hx
    exact hvalid x (by simp [hx])
  · exact hchain'.2.2 z hz c rfl

/-- `bfsEnqueue` only appends: queue members survive. -/
theorem bfsEnqueue_queue_monotone (cur : Nd) :
    ∀ (nbs : List Cell) (queue : List Nd) (v : Finset Cell) (nd : Nd),
      nd ∈ queue → nd ∈ (bfsEnqueue cur nbs queue v).1 := by
  intro nbs
  induction nbs with
  | nil => intro queue v nd hnd; exact hnd
  | cons nb t ih =>
    intro queue v nd hnd
    rw [bfsEnqueue]
    by_cases hmem : nb ∈ v
    · rw [if_pos hmem]
      exact ih _ _ _ hnd
    · rw [if_neg hmem]
      exact ih _ _ _ (List.mem_append_left _ hnd)

/-- `bfsEnqueue` only grows the visited set. -/
theorem bfsEnqueue_visited_monotone (cur : Nd) :
    ∀ (nbs : List Cell) (queue : List Nd) (v : Finset Cell) (c : Cell),
      c ∈ v → c ∈ (bfsEnqueue cur nbs queue v).2 := by
  intro nbs
  induction nbs with
  | nil => intro queue v c hc; exact hc
  | cons nb t ih =>
    intro queue v c hc
    rw [bfsEnqueue]
    by_cases hmem : nb ∈ v
    · rw [if_pos hmem]
      exact ih _ _ _ hc
    · rw [if_neg hmem]
      exact ih _ _ _ (Finset.mem_insert_of_mem hc)

/-- Every node in the enqueued queue is an old node or a fresh push with
`g = cur.g + 1`, a cell from the neighbor list that was unvisited, and the
extended path. -/
theorem bfsEnqueue_queue_mem (cur : Nd) :
    ∀ (nbs : List Cell) (queue : List Nd) (v : Finset Cell) (nd : Nd),
      nd ∈ (bfsEnqueue cur nbs queue v).1 →
      nd ∈ queue ∨ (nd.g = cur.g + 1 ∧ nd.cell ∈ nbs ∧ nd.cell ∉ v ∧
        nd.path = cur.path ++ [nd.cell]) := by
  intro nbs
  induction nbs with
  | nil => intro queue v nd hnd; exact Or.inl hnd
  | cons nb t ih =>
    intro queue v nd hnd
    rw [bfsEnqueue] at hnd
    by_cases hmem : nb ∈ v
    · rw [if_pos hmem] at hnd
      rcases ih _ _ _ hnd with h | ⟨hg, hc, hv, hp⟩
      · exact Or.inl h
      · exact Or.inr ⟨hg, List.mem_cons_of_mem _ hc, hv, hp⟩
    · rw [if_neg hmem] at hnd
      rcases ih _ _ _ hnd with h | ⟨hg, hc, hv, hp⟩
      · rcases List.mem_append.mp h with h | h
        · exact Or.inl h
        · have : nd = ⟨nb.x, nb.y, cur.g + 1, 0, 0, cur.path ++ [nb]⟩ := by
            simpa using h
          subst this
          exact Or.inr ⟨rfl, List.mem_cons_self _ _, hmem, rfl⟩
      · refine Or.inr ⟨hg, List.mem_cons_of_mem _ hc, fun hin => hv ?_, hp⟩
        exact Finset.mem_insert_of_mem hin

/-- After `bfsEnqueue`, every queued cell is marked visited (provided that
held before). -/
theorem bfsEnqueue_cells_visited (cur : Nd) :
    ∀ (nbs : List Cell) (queue : List Nd) (v : Finset Cell),
      (∀ nd ∈ queue, nd.cell ∈ v) →
      ∀ nd ∈ (bfsEnqueue cur nbs queue v).1, nd.cell ∈ (bfsEnqueue cur nbs queue v).2 := by
  intro nbs
  induction nbs with
  | nil => intro queue v h nd hnd; exact h nd hnd
  | cons nb t ih =>
    intro queue v h nd hnd
    rw [bfsEnqueue] at hnd ⊢
    by_cases hmem : nb ∈ v
    · rw [if_pos hmem] at hnd ⊢
      exact ih _ _ h nd hnd
    · rw [if_neg hmem] at hnd ⊢
      refine ih _ _ ?_ nd hnd
      intro nd' hnd'
      rcases List.mem_append.mp hnd' with h' | h'
      · exact Finset.mem_insert_of_mem (h nd' h')
      · have : nd' = ⟨nb.x, nb.y, cur.g + 1, 0, 0, cur.path ++ [nb]⟩ := by
          simpa using h'
        subst this
        exact Finset.mem_insert_self _ _

/-- Every cell newly marked visited by `bfsEnqueue` got a queue node. -/
theorem bfsEnqueue_visited_mem (cur : Nd) :
    ∀ (nbs : List Cell) (queue : List Nd) (v : Finset Cell) (c : Cell),
      c ∈ (bfsEnqueue cur nbs queue v).2 →
      c ∈ v ∨ ∃ nd ∈ (bfsEnqueue cur nbs queue v).1, nd.cell = c := by
  intro nbs
  induction nbs with
  | nil => intro queue v c hc; exact Or.inl hc
  | cons nb t ih =>
    intro queue v c hc
    rw [bfsEnqueue] at hc ⊢
    by_cases hmem : nb ∈ v
    · rw [if_pos hmem] at hc ⊢
      exact ih _ _ _ hc
    · rw [if_neg hmem] at hc ⊢
      rcases ih _ _ _ hc with h | h
      · rcases Finset.mem_insert.mp h with h | h
        · subst h
          refine Or.inr ⟨⟨c.x, c.y, cur.g + 1, 0, 0, cur.path ++ [c]⟩, ?_, rfl⟩
          exact bfsEnqueue_queue_monotone cur t _ _ _ (by simp)
        · exact Or.inl h
      · exact Or.inr h

/-- Every listed neighbor ends up visited after `bfsEnqueue`. -/
theorem bfsEnqueue_nbs_visited (cur : Nd) :
    ∀ (nbs : List Cell) (queue : List Nd) (v : Finset Cell),
      ∀ nb ∈ nbs, nb ∈ (bfsEnqueue cur nbs queue v).2 := by
  intro nbs
  induction nbs with
  | nil => intro queue v nb hnb; exact absurd hnb (List.not_mem_nil _)
  | cons nb0 t ih =>
    intro queue v nb hnb
    rw [bfsEnqueue]
    by_cases hmem : nb0 ∈ v
    · rw [if_pos hmem]
      rcases List.mem_cons.mp hnb with h | h
      · subst h
        exact bfsEnqueue_visited_monotone cur t _ _ _ hmem
      · exact ih _ _ nb h
    · rw [if_neg hmem]
      rcases List.mem_cons.mp hnb with h | h
      · subst h
        exact bfsEnqueue_visited_monotone cur t _ _ _ (Finset.mem_insert_self _ _)
      · exact ih _ _ nb h

/-- `bfsEnqueue` draws new visited cells from the neighbor list. -/
theorem bfsEnqueue_visited_union (cur : Nd) :
    ∀ (nbs : List Cell) (queue : List Nd) (v : Finset Cell) (c : Cell),
      c ∈ (bfsEnqueue cur nbs queue v).2 → c ∈ v ∨ c ∈ nbs := by
  intro nbs
  induction nbs with
  | nil => intro queue v c hc; exact Or.inl hc
  | cons nb t ih =>
    intro queue v c hc
    rw [bfsEnqueue] at hc
    by_cases hmem : nb ∈ v
    · rw [if_pos hmem] at hc
      rcases ih _ _ _ hc with h | h
      · exact Or.inl h
      · exact Or.inr (List.mem_cons_of_mem _ h)
    · rw [if_neg hmem] at hc
      rcases ih _ _ _ hc with h | h
      · rcases Finset.mem_insert.mp h with h | h
        · exact Or.inr (h ▸ List.mem_cons_self _ _)
        · exact Or.inl h
      · exact Or.inr (List.mem_cons_of_mem _ h)

/-- The BFS termination measure `queue.length + (|S| + 1 - |visited|)` does
not increase across `bfsEnqueue`, for any universe `S` containing the
visited set and the neighbors. -/
theorem bfsEnqueue_measure (cur : Nd) (S : Finset Cell) :
    ∀ (nbs : List Cell) (queue : List Nd) (v : Finset Cell),
      v ⊆ S → (∀ nb ∈ nbs, nb ∈ S) →
      (bfsEnqueue cur nbs queue v).1.length + (S.card + 1 - (bfsEnqueue cur nbs queue v).2.card) ≤
        queue.length + (S.card + 1 - v.card) := by
  intro nbs
  induction nbs with
  | nil => intro queue v _ _; exact le_refl _
  | cons nb t ih =>
    intro queue v hv hnbs
    rw [bfsEnqueue]
    by_cases hmem : nb ∈ v
    · rw [if_pos hmem]
      exact ih _ _ hv (fun x hx => hnbs x (List.mem_cons_of_mem _ hx))
    · rw [if_neg hmem]
      have hins : insert nb v ⊆ S := by
        intro x hx
        rcases Finset.mem_insert.mp hx with h | h
        · exact h ▸ hnbs nb (List.mem_cons_self _ _)
        · exact hv h
      refine le_trans (ih _ _ hins (fun x hx => hnbs x (List.mem_cons_of_mem _ hx))) ?_
      rw [List.length_append, Finset.card_insert_of_not_mem hmem]
      have hcard : v.card ≤ S.card := Finset.card_le_card hv
      simp only [List.length_cons, List.length_nil]
      omega

/-- BFS completeness: from an invariant-respecting state with sufficient
fuel, a `none` answer means no valid route from `start` to `goal` exists. -/
theorem bfsLoop_complete {boardSize : Nat} {snake obstacles : List Cell} {start goal : Cell} :
    ∀ (fuel : Nat) (q : List Nd) (v : Finset Cell),
      q.length + ((insert start (allCells boardSize)).card + 1 - v.card) ≤ fuel →
      (∀ nd ∈ q, nd.cell ∈ v) →
      (∀ z ∈ v, (∀ nd ∈ q, nd.cell ≠ z) →
        ∀ c ∈ getNeighbors boardSize snake obstacles z, c ∈ v) →
      (goal ∈ v → ∃ nd ∈ q, nd.cell = goal) →
      v ⊆ insert start (allCells boardSize) →
      start ∈ v →
      bfsLoop boardSize snake obstacles goal fuel q v = none →
      ∀ r, ¬RouteOk boardSize snake obstacles start goal r := by
  intro fuel
  induction fuel with
  | zero =>
    intro q v hfuel _ _ _ hB4 _ _ r hroute
    have := Finset.card_le_card hB4
    omega
  | succ f ih =>
    intro q v hfuel hB1 hB2 hB3 hB4 hB6 hnone r hroute
    match q with
    | [] =>
      refine closed_blocks_routes ?_ ?_ r start hB6 hroute
      · intro hg
        obtain ⟨nd, hnd, _⟩ := hB3 hg
        exact absurd hnd (List.not_mem_nil _)
      · intro z hz hc
        exact hB2 z hz (fun nd hnd => absurd hnd (List.not_mem_nil _)) hc
    | cur :: rest =>
      rw [bfsLoop] at hnone
      by_cases hgoal : cur.x = goal.x ∧ cur.y = goal.y
      · rw [if_pos hgoal] at hnone
        exact Option.noConfusion hnone
      · rw [if_neg hgoal] at hnone
        replace hnone :
            bfsLoop boardSize snake obstacles goal f
              (bfsEnqueue cur (getNeighbors boardSize snake obstacles cur.cell) rest v).1
              (bfsEnqueue cur (getNeighbors boardSize snake obstacles cur.cell) rest v).2 =
              none := hnone
        have hcurgoal : cur.cell ≠ goal := by
          intro h
          exact hgoal ⟨congrArg Cell.x h, congrArg Cell.y h⟩
        have hnbsS : ∀ nb ∈ getNeighbors boardSize snake obstacles cur.cell,
            nb ∈ insert start (allCells boardSize) := fun nb hnb =>
          Finset.mem_insert_of_mem (valid_mem_allCells (mem_getNeighbors hnb).1)
        refine ih _ _ ?_ ?_ ?_ ?_ ?_ ?_ hnone r hroute
        · have := bfsEnqueue_measure cur (insert start (allCells boardSize))
            (getNeighbors boardSize snake obstacles cur.cell) rest v hB4 hnbsS
          simp only [List.length_cons] at hfuel
          omega
        · exact bfsEnqueue_cells_visited cur _ rest v
            (fun nd hnd => hB1 nd (List.mem_cons_of_mem _ hnd))
        · intro z hz hnotin c hc
          rcases bfsEnqueue_visited_mem cur _ rest v z hz with hzv | ⟨nd, hnd, hcell⟩
          · by_cases hcur : cur.cell = z
            · exact bfsEnqueue_nbs_visited cur _ rest v c (hcur ▸ hc)
            · by_cases hrest : ∃ nd ∈ rest, nd.cell = z
              · obtain ⟨nd, hnd, hcell⟩ := hrest
                exact absurd hcell (hnotin nd (bfsEnqueue_queue_monotone cur _ rest v nd hnd))
              · refine bfsEnqueue_visited_monotone cur _ rest v c ?_
                refine hB2 z hzv ?_ c hc
                intro nd hnd
                rcases List.mem_cons.mp hnd with h | h
                · exact h ▸ hcur
                · exact fun he => hrest ⟨nd, h, he⟩
          · exact absurd hcell (hnotin nd hnd)
        · intro hg
          rcases bfsEnqueue_visited_mem cur _ rest v goal hg with hgv | h
          · obtain ⟨nd, hnd, hcell⟩ := hB3 hgv
            rcases List.mem_cons.mp hnd with h | h
            · exact absurd (h ▸ hcell) hcurgoal
            · exact ⟨nd, bfsEnqueue_queue_monotone cur _ rest v nd h, hcell⟩
          · exact h
        · intro c hc
          rcases bfsEnqueue_visited_union cur _ rest v c hc with h | h
          · exact hB4 h
          · exact hnbsS c h
        · exact bfsEnqueue_visited_monotone cur _ rest v start hB6

/-- `findPathBFS` completeness: `none` means no valid route exists. -/
theorem findPathBFS_complete {boardSize : Nat} {snake obstacles : List Cell} {start goal : Cell}
    (hnone : findPathBFS boardSize snake obstacles start goal = none) :
    ∀ r, ¬RouteOk boardSize snake obstacles start goal r := by
  intro r
  refine bfsLoop_complete (boardSize * boardSize + 2) [⟨start.x, start.y, 0, 0, 0, []⟩]
    {start} ?_ ?_ ?_ ?_ ?_ ?_ hnone r
  · have h1 : (insert start (allCells boardSize)).card ≤ (allCells boardSize).card + 1 :=
      Finset.card_insert_le _ _
    have h2 := allCells_card_le boardSize
    simp only [List.length_cons, List.length_nil, Finset.card_singleton]
    omega
  · intro nd hnd
    have : nd = ⟨start.x, start.y, 0, 0, 0, []⟩ := by simpa using hnd
    subst this
    exact Finset.mem_singleton_self _
  · intro z hz hnotin
    exfalso
    refine hnotin ⟨start.x, start.y, 0, 0, 0, []⟩ (by simp) ?_
    rw [Finset.mem_singleton] at hz
    exact hz ▸ rfl
  · intro hg
    rw [Finset.mem_singleton] at hg
    exact ⟨⟨start.x, start.y, 0, 0, 0, []⟩, by simp, hg ▸ rfl⟩
  · intro c hc
    rw [Finset.mem_singleton] at hc
    exact hc ▸ Finset.mem_insert_self _ _
  · exact Finset.mem_singleton_self _

/-- A failed open-list lookup means no open node sits on that cell. -/
theorem find_none_cell {openList : List Nd} {nb : Cell}
    (h : openList.find? (fun n => n.x = nb.x && n.y = nb.y) = none) :
    ∀ nd ∈ openList, nd.cell ≠ nb := by
  intro nd hnd heq
  have := List.find?_eq_none.mp h nd hnd
  simp only [Bool.and_eq_true, decide_eq_true_eq] at this
  exact this ⟨congrArg Cell.x heq, congrArg Cell.y heq⟩

/-- `updateFirst` with a cell-preserving update keeps the cell list. -/
theorem updateFirst_map_cell {p : Nd → Bool} {f : Nd → Nd}
    (hf : ∀ nd, (f nd).cell = nd.cell) :
    ∀ l : List Nd, (updateFirst p f l).map Nd.cell = l.map Nd.cell := by
  intro l
  induction l with
  | nil => rfl
  | cons a t ih =>
    rw [updateFirst]
    by_cases hp : p a
    · rw [if_pos hp, List.map_cons, List.map_cons, hf]
    · rw [if_neg hp, List.map_cons, List.map_cons, ih]

/-- The A* relaxation update keeps the open cell list unchanged. -/
theorem updateFirst_astar_map_cell (nb : Cell) (cur : Nd) (openList : List Nd) :
    (updateFirst (fun n => n.x = nb.x && n.y = nb.y)
      (fun n => { n with
        g := cur.g + 1
        f := ((cur.g + 1 : Int) : ℚ) + n.h
        path := cur.path ++ [nb] }) openList).map Nd.cell = openList.map Nd.cell := by
  refine updateFirst_map_cell ?_ openList
  intro nd
  rfl

/-- Open cells survive `aStarExpand`. -/
theorem aStarExpand_cell_monotone (w : ℚ) (goal : Cell) (cur : Nd) (closed : Finset Cell) :
    ∀ (nbs : List Cell) (openList : List Nd) (c : Cell),
      c ∈ openList.map Nd.cell →
      c ∈ (aStarExpand w goal cur closed nbs openList).map Nd.cell := by
  intro nbs
  induction nbs with
  | nil => intro openList c hc; exact hc
  | cons nb t ih =>
    intro openList c hc
    rw [aStarExpand]
    by_cases hmem : nb ∈ closed
    · rw [if_pos hmem]
      exact ih _ _ hc
    · rw [if_neg hmem]
      cases hfind : openList.find? (fun n => n.x = nb.x && n.y = nb.y) with
      | none =>
        dsimp only
        refine ih _ _ ?_
        rw [List.map_append]
        exact List.mem_append_left _ hc
      | some ex =>
        dsimp only
        by_cases hrel : cur.g + 1 < ex.g
        · rw [if_pos hrel]
          refine ih _ _ ?_
          rw [updateFirst_astar_map_cell nb cur openList]
          exact hc
        · rw [if_neg hrel]
          exact ih _ _ hc

/-- Every cell in the expanded open list is an old open cell or a neighbor. -/
theorem aStarExpand_cell_mem (w : ℚ) (goal : Cell) (cur : Nd) (closed : Finset Cell) :
    ∀ (nbs : List Cell) (openList : List Nd) (c : Cell),
      c ∈ (aStarExpand w goal cur closed nbs openList).map Nd.cell →
      c ∈ openList.map Nd.cell ∨ c ∈ nbs := by
  intro nbs
  induction nbs with
  | nil => intro openList c hc; exact Or.inl hc
  | cons nb t ih =>
    intro openList c hc
    rw [aStarExpand] at hc
    by_cases hmem : nb ∈ closed
    · rw [if_pos hmem] at hc
      rcases ih _ _ hc with h | h
      · exact Or.inl h
      · exact Or.inr (List.mem_cons_of_mem _ h)
    · rw [if_neg hmem] at hc
      cases hfind : openList.find? (fun n => n.x = nb.x && n.y = nb.y) with
      | none =>
        rw [hfind] at hc
        rcases ih _ _ hc with h | h
        · rw [List.map_append] at h
          rcases List.mem_append.mp h with h | h
          · exact Or.inl h
          · have : c = nb := by simpa using h
            exact Or.inr (this ▸ List.mem_cons_self _ _)
        · exact Or.inr (List.mem_cons_of_mem _ h)
      | some ex =>
        rw [hfind] at hc
        dsimp only at hc
        by_cases hrel : cur.g + 1 < ex.g
        · rw [if_pos hrel] at hc
          rcases ih _ _ hc with h | h
          · rw [updateFirst_astar_map_cell nb cur openList] at h
            exact Or.inl h
          · exact Or.inr (List.mem_cons_of_mem _ h)
        · rw [if_neg hrel] at hc
          rcases ih _ _ hc with h | h
          · exact Or.inl h
          · exact Or.inr (List.mem_cons_of_mem _ h)

/-- `aStarExpand` keeps the open cell list duplicate-free. -/
theorem aStarExpand_cell_nodup (w : ℚ) (goal : Cell) (cur : Nd) (closed : Finset Cell) :
    ∀ (nbs : List Cell) (openList : List Nd),
      (openList.map Nd.cell).Nodup →
      ((aStarExpand w goal cur closed nbs openList).map Nd.cell).Nodup := by
  intro nbs
  induction nbs with
  | nil => intro openList h; exact h
  | cons nb t ih =>
    intro openList h
    rw [aStarExpand]
    by_cases hmem : nb ∈ closed
    · rw [if_pos hmem]
      exact ih _ h
    · rw [if_neg hmem]
      cases hfind : openList.find? (fun n => n.x = nb.x && n.y = nb.y) with
      | none =>
        dsimp only
        refine ih _ ?_
        rw [List.map_append, List.nodup_append]
        refine ⟨h, List.nodup_singleton _, ?_⟩
        intro c hc hc'
        have hcnb : c = nb := by simpa using hc'
        obtain ⟨nd, hnd, hcell⟩ := List.mem_map.mp hc
        exact find_none_cell hfind nd hnd (hcell.trans hcnb)
      | some ex =>
        dsimp only
        by_cases hrel : cur.g + 1 < ex.g
        · rw [if_pos hrel]
          refine ih _ ?_
          rw [updateFirst_astar_map_cell nb cur openList]
          exact h
        · rw [if_neg hrel]
          exact ih _ h

/-- `aStarExpand` never opens a closed cell. -/
theorem aStarExpand_cell_not_closed (w : ℚ) (goal : Cell) (cur : Nd) (closed : Finset Cell) :
    ∀ (nbs : List Cell) (openList : List Nd),
      (∀ nd ∈ openList, nd.cell ∉ closed) →
      ∀ nd ∈ aStarExpand w goal cur closed nbs openList, nd.cell ∉ closed := by
  intro nbs
  induction nbs with
  | nil => intro openList h nd hnd; exact h nd hnd
  | cons nb t ih =>
    intro openList h nd hnd
    rw [aStarExpand] at hnd
    by_cases hmem : nb ∈ closed
    · rw [if_pos hmem] at hnd
      exact ih _ h nd hnd
    · rw [if_neg hmem] at hnd
      cases hfind : openList.find? (fun n => n.x = nb.x && n.y = nb.y) with
      | none =>
        rw [hfind] at hnd
        refine ih _ ?_ nd hnd
        intro nd' hnd'
        rcases List.mem_append.mp hnd' with h' | h'
        · exact h nd' h'
        · have : nd' = ⟨nb.x, nb.y, cur.g + 1, heuristic w nb goal,
              ((cur.g + 1 : Int) : ℚ) + heuristic w nb goal, cur.path ++ [nb]⟩ := by
            simpa using h'
          subst this
          exact hmem
      | some ex =>
        rw [hfind] at hnd
        dsimp only at hnd
        by_cases hrel : cur.g + 1 < ex.g
        · rw [if_pos hrel] at hnd
          refine ih _ ?_ nd hnd
          intro nd' hnd'
          rcases mem_updateFirst hnd' with h' | ⟨nd'', hnd'', _, heq⟩
          · exact h nd' h'
          · rw [heq]
            exact h nd'' hnd''
        · rw [if_neg hrel] at hnd
          exact ih _ h nd hnd

/-- Every processed neighbor ends up closed or on the open list. -/
theorem aStarExpand_nbs_accounted (w : ℚ) (goal : Cell) (cur : Nd) (closed : Finset Cell) :
    ∀ (nbs : List Cell) (openList : List Nd),
      ∀ nb ∈ nbs, nb ∈ closed ∨ nb ∈ (aStarExpand w goal cur closed nbs openList).map Nd.cell := by
  intro nbs
  induction nbs with
  | nil => intro openList nb hnb; exact absurd hnb (List.not_mem_nil _)
  | cons nb0 t ih =>
    intro openList nb hnb
    rw [aStarExpand]
    by_cases hmem : nb0 ∈ closed
    · rw [if_pos hmem]
      rcases List.mem_cons.mp hnb with h | h
      · exact Or.inl (h ▸ hmem)
      · exact ih _ nb h
    · rw [if_neg hmem]
      cases hfind : openList.find? (fun n => n.x = nb0.x && n.y = nb0.y) with
      | none =>
        dsimp only
        rcases List.mem_cons.mp hnb with h | h
        · subst h
          refine Or.inr (aStarExpand_cell_monotone w goal cur closed t _ nb ?_)
          rw [List.map_append]
          refine List.mem_append_right _ ?_
          exact List.mem_map.mpr ⟨_, List.mem_singleton_self _, rfl⟩
        · exact ih _ nb h
      | some ex =>
        dsimp only
        have hex : ex ∈ openList := List.mem_of_find?_eq_some hfind
        have hexcell : ex.cell = nb0 := by
          have := List.find?_some hfind
          simp only [Bool.and_eq_true, decide_eq_true_eq] at this
          obtain ⟨c1, c2⟩ := this
          obtain ⟨x, y⟩ := nb0
          dsimp only at c1 c2
          rw [Nd.cell, c1, c2]
        by_cases hrel : cur.g + 1 < ex.g
        · rw [if_pos hrel]
          rcases List.mem_cons.mp hnb with h | h
          · refine Or.inr (aStarExpand_cell_monotone w goal cur closed t _ nb ?_)
            rw [updateFirst_astar_map_cell nb0 cur openList]
            exact List.mem_map.mpr ⟨ex, hex, hexcell.trans h.symm⟩
          · exact ih _ nb h
        · rw [if_neg hrel]
          rcases List.mem_cons.mp hnb with h | h
          · exact Or.inr (aStarExpand_cell_monotone w goal cur closed t _ nb
              (List.mem_map.mpr ⟨ex, hex, hexcell.trans h.symm⟩))
          · exact ih _ nb h

/-- A* completeness: from an invariant-respecting state with sufficient
fuel, a `none` answer means no valid route from `start` to `goal` exists. -/
theorem aStarLoop_complete {boardSize : Nat} {snake obstacles : List Cell} {start goal : Cell}
    {w : ℚ} :
    ∀ (fuel : Nat) (openList : List Nd) (closed : Finset Cell),
      (insert start (allCells boardSize)).card + 1 - closed.card ≤ fuel →
      (openList.map Nd.cell).Nodup →
      (∀ nd ∈ openList, nd.cell ∉ closed) →
      (∀ nd ∈ openList, nd.cell ∈ insert start (allCells boardSize)) →
      closed ⊆ insert start (allCells boardSize) →
      goal ∉ closed →
      (start ∈ closed ∨ start ∈ openList.map Nd.cell) →
      (∀ z ∈ closed, ∀ c ∈ getNeighbors boardSize snake obstacles z,
        c ∈ closed ∨ c ∈ openList.map Nd.cell) →
      (aStarLoop boardSize snake obstacles goal w fuel openList closed).1 = none →
      ∀ r, ¬RouteOk boardSize snake obstacles start goal r := by
  intro fuel
  induction fuel with
  | zero =>
    intro openList closed hfuel _ _ _ hI4 _ _ _ _ r hroute
    have := Finset.card_le_card hI4
    omega
  | succ f ih =>
    intro openList closed hfuel hI1 hI2 hI3 hI4 hI5 hI6 hI7 hnone r hroute
    have hperm := sortNodes_perm (fun a b => decide (a.f ≤ b.f)) openList
    rw [aStarLoop] at hnone
    cases hs : sortNodes (fun a b => decide (a.f ≤ b.f)) openList with
    | nil =>
      rw [hs] at hperm
      have hempty : openList = [] := hperm.symm.eq_nil
      subst hempty
      have hstart : start ∈ closed := by
        rcases hI6 with h | h
        · exact h
        · exact absurd h (List.not_mem_nil _)
      refine closed_blocks_routes hI5 ?_ r start hstart hroute
      intro z hz c hc
      rcases hI7 z hz c hc with h | h
      · exact h
      · exact absurd h (List.not_mem_nil _)
    | cons cur rest =>
      rw [hs] at hnone hperm
      have hcellsperm : ((cur :: rest).map Nd.cell).Perm (openList.map Nd.cell) :=
        hperm.map _
      have hnodup : ((cur :: rest).map Nd.cell).Nodup := hcellsperm.nodup_iff.mpr hI1
      have hcurO : cur ∈ openList := hperm.subset (List.mem_cons_self _ _)
      have hcurnotin : cur.cell ∉ closed := hI2 cur hcurO
      have hcurS : cur.cell ∈ insert start (allCells boardSize) := hI3 cur hcurO
      have hheadcell : cur.cell ∉ rest.map Nd.cell := by
        rw [List.map_cons] at hnodup
        exact (List.nodup_cons.mp hnodup).1
      have hrestnodup : (rest.map Nd.cell).Nodup := by
        rw [List.map_cons] at hnodup
        exact (List.nodup_cons.mp hnodup).2
      dsimp only at hnone
      by_cases hgoal : cur.x = goal.x ∧ cur.y = goal.y
      · rw [if_pos hgoal] at hnone
        exact Option.noConfusion hnone
      · rw [if_neg hgoal] at hnone
        have hcurgoal : cur.cell ≠ goal := by
          intro h
          exact hgoal ⟨congrArg Cell.x h, congrArg Cell.y h⟩
        have hnbsS : ∀ nb ∈ getNeighbors boardSize snake obstacles cur.cell,
            nb ∈ insert start (allCells boardSize) := fun nb hnb =>
          Finset.mem_insert_of_mem (valid_mem_allCells (mem_getNeighbors hnb).1)
        replace hnone :
            (aStarLoop boardSize snake obstacles goal w f
              (aStarExpand w goal cur (insert cur.cell closed)
                (getNeighbors boardSize snake obstacles cur.cell) rest)
              (insert cur.cell closed)).1 = none := hnone
        refine ih _ _ ?_ ?_ ?_ ?_ ?_ ?_ ?_ ?_ hnone r hroute
        · rw [Finset.card_insert_of_not_mem hcurnotin]
          omega
        · exact aStarExpand_cell_nodup w goal cur _ _ rest hrestnodup
        · refine aStarExpand_cell_not_closed w goal cur _ _ rest ?_
          intro nd hnd
          rw [Finset.mem_insert, not_or]
          constructor
          · intro h
            exact hheadcell (h ▸ List.mem_map.mpr ⟨nd, hnd, rfl⟩)
          · exact hI2 nd (hperm.subset (List.mem_cons_of_mem _ hnd))
        · intro nd hnd
          rcases aStarExpand_cell_mem w goal cur _ _ rest nd.cell
              (List.mem_map.mpr ⟨nd, hnd, rfl⟩) with h | h
          · obtain ⟨nd', hnd', hcell⟩ := List.mem_map.mp h
            exact hcell ▸ hI3 nd' (hperm.subset (List.mem_cons_of_mem _ hnd'))
          · exact hnbsS _ h
        · intro c hc
          rcases Finset.mem_insert.mp hc with h | h
          · exact h ▸ hcurS
          · exact hI4 h
        · rw [Finset.mem_insert, not_or]
          exact ⟨fun h => hcurgoal h.symm, hI5⟩
        · rcases hI6 with h | h
          · exact Or.inl (Finset.mem_insert_of_mem h)
          · rcases List.mem_cons.mp (hcellsperm.symm.subset h) with h' | h'
            · exact Or.inl (h' ▸ Finset.mem_insert_self _ _)
            · exact Or.inr (aStarExpand_cell_monotone w goal cur _ _ rest start h')
        · intro z hz c hc
          rcases Finset.mem_insert.mp hz with h | h
          · subst h
            exact aStarExpand_nbs_accounted w goal cur _ _ rest c hc
          · rcases hI7 z h c hc with h' | h'
            · exact Or.inl (Finset.mem_insert_of_mem h')
            · rcases List.mem_cons.mp (hcellsperm.symm.subset h') with h'' | h''
              · exact Or.inl (h'' ▸ Finset.mem_insert_self _ _)
              · exact Or.inr (aStarExpand_cell_monotone w goal cur _ _ rest c h'')

/-- `findPathAStar` completeness: `none` means no valid route exists. -/
theorem findPathAStar_complete {boardSize : Nat} {snake obstacles : List Cell}
    {start goal : Cell} {w : ℚ}
    (hnone : findPathAStar boardSize snake obstacles start goal w = none) :
    ∀ r, ¬RouteOk boardSize snake obstacles start goal r := by
  intro r
  refine aStarLoop_complete (boardSize * boardSize + 2)
    [⟨start.x, start.y, 0, heuristic w start goal, heuristic w start goal, []⟩] ∅
    ?_ ?_ ?_ ?_ ?_ ?_ ?_ ?_ hnone r
  · have h1 : (insert start (allCells boardSize)).card ≤ (allCells boardSize).card + 1 :=
      Finset.card_insert_le _ _
    have h2 := allCells_card_le boardSize
    simp only [Finset.card_empty]
    omega
  · exact List.nodup_singleton _
  · intro nd _
    exact Finset.not_mem_empty _
  · intro nd hnd
    have : nd = ⟨start.x, start.y, 0, heuristic w start goal, heuristic w start goal, []⟩ := by
      simpa using hnd
    subst this
    exact Finset.mem_insert_self _ _
  · exact Finset.empty_subset _
  · exact Finset.not_mem_empty _
  · exact Or.inr (by simp [Nd.cell])
  · intro z hz
    exact absurd hz (Finset.not_mem_empty _)

/-- `findPathDijkstra` completeness, via the exact agreement of Dijkstra with
zero-weight A*. -/
theorem findPathDijkstra_complete {boardSize : Nat} {snake obstacles : List Cell}
    {start goal : Cell}
    (hnone : findPathDijkstra boardSize snake obstacles start goal = none) :
    ∀ r, ¬RouteOk boardSize snake obstacles start goal r := by
  have h0 : findPathAStar boardSize snake obstacles start goal 0 = none := by
    rw [findPathAStar, aStarSearch_zero_eq_dijkstra]
    exact hnone
  exact findPathAStar_complete h0

/-- `greedyExpand` only appends: open nodes survive. -/
theorem greedyExpand_monotone (w : ℚ) (goal : Cell) (cur : Nd) (v : Finset Cell) :
    ∀ (nbs : List Cell) (openList : List Nd) (nd : Nd),
      nd ∈ openList → nd ∈ greedyExpand w goal cur v nbs openList := by
  intro nbs
  induction nbs with
  | nil => intro openList nd hnd; exact hnd
  | cons nb t ih =>
    intro openList nd hnd
    rw [greedyExpand]
    by_cases hmem : nb ∈ v
    · rw [if_pos hmem]
      exact ih _ _ hnd
    · rw [if_neg hmem]
      exact ih _ _ (List.mem_append_left _ hnd)

/-- Every node of the expanded greedy open list is an old node or a push of
an unvisited neighbor cell. -/
theorem greedyExpand_mem (w : ℚ) (goal : Cell) (cur : Nd) (v : Finset Cell) :
    ∀ (nbs : List Cell) (openList : List Nd) (nd : Nd),
      nd ∈ greedyExpand w goal cur v nbs openList →
      nd ∈ openList ∨ (nd.cell ∈ nbs ∧ nd.cell ∉ v) := by
  intro nbs
  induction nbs with
  | nil => intro openList nd hnd; exact Or.inl hnd
  | cons nb t ih =>
    intro openList nd hnd
    rw [greedyExpand] at hnd
    by_cases hmem : nb ∈ v
    · rw [if_pos hmem] at hnd
      rcases ih _ _ hnd with h | ⟨h1, h2⟩
      · exact Or.inl h
      · exact Or.inr ⟨List.mem_cons_of_mem _ h1, h2⟩
    · rw [if_neg hmem] at hnd
      rcases ih _ _ hnd with h | ⟨h1, h2⟩
      · rcases List.mem_append.mp h with h' | h'
        · exact Or.inl h'
        · have : nd = ⟨nb.x, nb.y, cur.g + 1, heuristic w nb goal, heuristic w nb goal,
              cur.path ++ [nb]⟩ := by
            simpa using h'
          subst this
          exact Or.inr ⟨List.mem_cons_self _ _, hmem⟩
      · exact Or.inr ⟨List.mem_cons_of_mem _ h1, h2⟩

/-- Every neighbor processed by `greedyExpand` is visited or gets an open
node. -/
theorem greedyExpand_nbs_accounted (w : ℚ) (goal : Cell) (cur : Nd) (v : Finset Cell) :
    ∀ (nbs : List Cell) (openList : List Nd),
      ∀ nb ∈ nbs, nb ∈ v ∨ ∃ nd ∈ greedyExpand w goal cur v nbs openList, nd.cell = nb := by
  intro nbs
  induction nbs with
  | nil => intro openList nb hnb; exact absurd hnb (List.not_mem_nil _)
  | cons nb0 t ih =>
    intro openList nb hnb
    rw [greedyExpand]
    by_cases hmem : nb0 ∈ v
    · rw [if_pos hmem]
      rcases List.mem_cons.mp hnb with h | h
      · exact Or.inl (h ▸ hmem)
      · exact ih _ nb h
    · rw [if_neg hmem]
      rcases List.mem_cons.mp hnb with h | h
      · subst h
        refine Or.inr ⟨⟨nb.x, nb.y, cur.g + 1, heuristic w nb goal, heuristic w nb goal,
          cur.path ++ [nb]⟩, ?_, rfl⟩
        exact greedyExpand_monotone w goal cur v t _ _ (by simp)
      · exact ih _ nb h

/-- A cell has at most four candidate neighbors. -/
theorem getNeighbors_length_le (boardSize : Nat) (snake obstacles : List Cell) (pos : Cell) :
    (getNeighbors boardSize snake obstacles pos).length ≤ 4 := by
  unfold getNeighbors
  exact List.length_filter_le _ _

/-- Greedy node weights are positive. -/
theorem greedyWeight_pos (S v : Finset Cell) (nd : Nd) : 1 ≤ greedyWeight S v nd := by
  unfold greedyWeight
  have h5 : 0 < 5 ^ (S.card - v.card) := Nat.pos_pow_of_pos _ (by norm_num)
  split <;> omega

/-- Marking a fresh cell visited does not increase any node's weight. -/
theorem greedyWeight_insert_le {S v : Finset Cell} {c : Cell}
    (hvS : v ⊆ S) (hcS : c ∈ S) (hcv : c ∉ v) (nd : Nd) :
    greedyWeight S (insert c v) nd ≤ greedyWeight S v nd := by
  have hcard : (insert c v).card = v.card + 1 := Finset.card_insert_of_not_mem hcv
  have hlt : v.card < S.card :=
    Finset.card_lt_card ((Finset.ssubset_iff_of_subset hvS).mpr ⟨c, hcS, hcv⟩)
  obtain ⟨k, hk⟩ : ∃ k, S.card - v.card = k + 1 := ⟨S.card - v.card - 1, by omega⟩
  have hk' : S.card - (insert c v).card = k := by omega
  unfold greedyWeight
  rw [hk, hk']
  have hpow : 5 ^ k ≤ 5 ^ (k + 1) := Nat.pow_le_pow_right (by norm_num) (Nat.le_succ _)
  have hpos : 1 ≤ 5 ^ k := Nat.one_le_pow _ _ (by norm_num)
  have hsucc : 5 ^ (k + 1) = 5 * 5 ^ k := by rw [pow_succ]; ring
  by_cases h1 : nd.cell ∈ v
  · rw [if_pos h1, if_pos (Finset.mem_insert_of_mem h1)]
    omega
  · by_cases h2 : nd.cell ∈ insert c v
    · rw [if_pos h2, if_neg h1]
      omega
    · rw [if_neg h2, if_neg h1]
      exact hpow

/-- Marking a fresh cell visited does not increase the potential. -/
theorem greedyPot_insert_le {S v : Finset Cell} {c : Cell}
    (hvS : v ⊆ S) (hcS : c ∈ S) (hcv : c ∉ v) (l : List Nd) :
    greedyPot S (insert c v) l ≤ greedyPot S v l :=
  List.sum_le_sum (fun nd _ => greedyWeight_insert_le hvS hcS hcv nd)

/-- The potential over an appended list splits. -/
theorem greedyPot_append (S v : Finset Cell) (l1 l2 : List Nd) :
    greedyPot S v (l1 ++ l2) = greedyPot S v l1 + greedyPot S v l2 := by
  unfold greedyPot
  rw [List.map_append, List.sum_append]

/-- `greedyExpand` adds at most one unvisited-cell weight per neighbor. -/
theorem greedyExpand_pot (S : Finset Cell) (w : ℚ) (goal : Cell) (cur : Nd) (v : Finset Cell) :
    ∀ (nbs : List Cell) (openList : List Nd),
      greedyPot S v (greedyExpand w goal cur v nbs openList) ≤
        greedyPot S v openList + nbs.length * 5 ^ (S.card - v.card) := by
  intro nbs
  induction nbs with
  | nil => intro openList; simp [greedyExpand]
  | cons nb t ih =>
    intro openList
    rw [greedyExpand]
    by_cases hmem : nb ∈ v
    · rw [if_pos hmem]
      refine le_trans (ih openList) ?_
      have : t.length * 5 ^ (S.card - v.card) ≤ (nb :: t).length * 5 ^ (S.card - v.card) := by
        refine Nat.mul_le_mul_right _ ?_
        simp
      omega
    · rw [if_neg hmem]
      refine le_trans (ih _) ?_
      rw [greedyPot_append]
      have hw : greedyPot S v [⟨nb.x, nb.y, cur.g + 1, heuristic w nb goal,
          heuristic w nb goal, cur.path ++ [nb]⟩] = 5 ^ (S.card - v.card) := by
        unfold greedyPot greedyWeight
        simp only [List.map_cons, List.map_nil, List.sum_cons, List.sum_nil]
        change (if nb ∈ v then 4 * 5 ^ (S.card - v.card) + 1 else 5 ^ (S.card - v.card)) + 0 =
          5 ^ (S.card - v.card)
        rw [if_neg hmem, Nat.add_zero]
      rw [hw]
      simp only [List.length_cons]
      ring_nf
      omega

/-- Greedy best-first completeness: from an invariant-respecting state with
fuel above the potential, a `none` answer means no valid route exists. -/
theorem greedyLoop_complete {boardSize : Nat} {snake obstacles : List Cell} {start goal : Cell}
    {w : ℚ} :
    ∀ (fuel : Nat) (openList : List Nd) (v : Finset Cell),
      greedyPot (insert start (allCells boardSize)) v openList < fuel →
      (∀ nd ∈ openList, nd.cell ∈ insert start (allCells boardSize)) →
      v ⊆ insert start (allCells boardSize) →
      goal ∉ v →
      (start ∈ v ∨ ∃ nd ∈ openList, nd.cell = start) →
      (∀ z ∈ v, ∀ c ∈ getNeighbors boardSize snake obstacles z,
        c ∈ v ∨ ∃ nd ∈ openList, nd.cell = c) →
      greedyLoop boardSize snake obstacles goal w fuel openList v = none →
      ∀ r, ¬RouteOk boardSize snake obstacles start goal r := by
  intro fuel
  induction fuel with
  | zero =>
    intro openList v hfuel _ _ _ _ _ _ r hroute
    exact absurd hfuel (Nat.not_lt_zero _)
  | succ f ih =>
    intro openList v hfuel hJ1 hJ2 hJ3 hJ4 hJ5 hnone r hroute
    have hperm := sortNodes_perm (fun a b => decide (a.h ≤ b.h)) openList
    rw [greedyLoop] at hnone
    cases hs : sortNodes (fun a b => decide (a.h ≤ b.h)) openList with
    | nil =>
      rw [hs] at hperm
      have hempty : openList = [] := hperm.symm.eq_nil
      subst hempty
      have hstart : start ∈ v := by
        rcases hJ4 with h | ⟨nd, hnd, _⟩
        · exact h
        · exact absurd hnd (List.not_mem_nil _)
      refine closed_blocks_routes hJ3 ?_ r start hstart hroute
      intro z hz c hc
      rcases hJ5 z hz c hc with h | ⟨nd, hnd, _⟩
      · exact h
      · exact absurd hnd (List.not_mem_nil _)
    | cons cur rest =>
      rw [hs] at hnone hperm
      have hcurO : cur ∈ openList := hperm.subset (List.mem_cons_self _ _)
      have hcurS : cur.cell ∈ insert start (allCells boardSize) := hJ1 cur hcurO
      have hpotperm : greedyPot (insert start (allCells boardSize)) v (cur :: rest) =
          greedyPot (insert start (allCells boardSize)) v openList :=
        (hperm.map (greedyWeight (insert start (allCells boardSize)) v)).sum_eq
      have hpotcons : greedyPot (insert start (allCells boardSize)) v (cur :: rest) =
          greedyWeight (insert start (allCells boardSize)) v cur +
            greedyPot (insert start (allCells boardSize)) v rest := by
        unfold greedyPot
        rw [List.map_cons, List.sum_cons]
      dsimp only at hnone
      by_cases hgoal : cur.x = goal.x ∧ cur.y = goal.y
      · rw [if_pos hgoal] at hnone
        exact Option.noConfusion hnone
      · rw [if_neg hgoal] at hnone
        have hcurgoal : cur.cell ≠ goal := by
          intro h
          exact hgoal ⟨congrArg Cell.x h, congrArg Cell.y h⟩
        have hnbsS : ∀ nb ∈ getNeighbors boardSize snake obstacles cur.cell,
            nb ∈ insert start (allCells boardSize) := fun nb hnb =>
          Finset.mem_insert_of_mem (valid_mem_allCells (mem_getNeighbors hnb).1)
        replace hnone :
            greedyLoop boardSize snake obstacles goal w f
              (greedyExpand w goal cur (insert cur.cell v)
                (getNeighbors boardSize snake obstacles cur.cell) rest)
              (insert cur.cell v) = none := hnone
        have hnbslen := getNeighbors_length_le boardSize snake obstacles cur.cell
        refine ih _ _ ?_ ?_ ?_ ?_ ?_ ?_ hnone r hroute
        · by_cases hcur : cur.cell ∈ v
          · have hveq : insert cur.cell v = v := Finset.insert_eq_self.mpr hcur
            rw [hveq]
            have hpot := greedyExpand_pot (insert start (allCells boardSize)) w goal cur v
              (getNeighbors boardSize snake obstacles cur.cell) rest
            have hwcur : greedyWeight (insert start (allCells boardSize)) v cur =
                4 * 5 ^ ((insert start (allCells boardSize)).card - v.card) + 1 := by
              unfold greedyWeight
              rw [if_pos hcur]
            have hmul : (getNeighbors boardSize snake obstacles cur.cell).length *
                5 ^ ((insert start (allCells boardSize)).card - v.card) ≤
                4 * 5 ^ ((insert start (allCells boardSize)).card - v.card) :=
              Nat.mul_le_mul_right _ hnbslen
            omega
          · have hlt : v.card < (insert start (allCells boardSize)).card :=
              Finset.card_lt_card ((Finset.ssubset_iff_of_subset hJ2).mpr
                ⟨cur.cell, hcurS, hcur⟩)
            obtain ⟨k, hk⟩ : ∃ k,
                (insert start (allCells boardSize)).card - v.card = k + 1 :=
              ⟨(insert start (allCells boardSize)).card - v.card - 1, by omega⟩
            have hcard : (insert cur.cell v).card = v.card + 1 :=
              Finset.card_insert_of_not_mem hcur
            have hk' : (insert start (allCells boardSize)).card -
                (insert cur.cell v).card = k := by omega
            have hpot := greedyExpand_pot (insert start (allCells boardSize)) w goal cur
              (insert cur.cell v) (getNeighbors boardSize snake obstacles cur.cell) rest
            rw [hk'] at hpot
            have hrest := greedyPot_insert_le hJ2 hcurS hcur rest
            have hwcur : greedyWeight (insert start (allCells boardSize)) v cur =
                5 ^ (k + 1) := by
              unfold greedyWeight
              rw [if_neg hcur, hk]
            have hsucc : 5 ^ (k + 1) = 5 * 5 ^ k := by rw [pow_succ]; ring
            have hpos : 1 ≤ 5 ^ k := Nat.one_le_pow _ _ (by norm_num)
            have hmul : (getNeighbors boardSize snake obstacles cur.cell).length *
                5 ^ k ≤ 4 * 5 ^ k := Nat.mul_le_mul_right _ hnbslen
            omega
        · intro nd hnd
          rcases greedyExpand_mem w goal cur (insert cur.cell v) _ rest nd hnd with h | ⟨h1, _⟩
          · exact hJ1 nd (hperm.subset (List.mem_cons_of_mem _ h))
          · exact hnbsS _ h1
        · intro c hc
          rcases Finset.mem_insert.mp hc with h | h
          · exact h ▸ hcurS
          · exact hJ2 h
        · rw [Finset.mem_insert, not_or]
          exact ⟨fun h => hcurgoal h.symm, hJ3⟩
        · rcases hJ4 with h | ⟨nd, hnd, hcell⟩
          · exact Or.inl (Finset.mem_insert_of_mem h)
          · rcases List.mem_cons.mp (hperm.mem_iff.mpr hnd) with h' | h'
            · exact Or.inl (by rw [← hcell, h']; exact Finset.mem_insert_self _ _)
            · exact Or.inr ⟨nd, greedyExpand_monotone w goal cur _ _ _ nd h', hcell⟩
        · intro z hz c hc
          rcases Finset.mem_insert.mp hz with h | h
          · subst h
            exact greedyExpand_nbs_accounted w goal cur _ _ rest c hc
          · rcases hJ5 z h c hc with h' | ⟨nd, hnd, hcell⟩
            · exact Or.inl (Finset.mem_insert_of_mem h')
            · rcases List.mem_cons.mp (hperm.mem_iff.mpr hnd) with h'' | h''
              · exact Or.inl (by rw [← hcell, h'']; exact Finset.mem_insert_self _ _)
              · exact Or.inr ⟨nd, greedyExpand_monotone w goal cur _ _ _ nd h'', hcell⟩

/-- `findPathGreedy` completeness: `none` means no valid route exists. -/
theorem findPathGreedy_complete {boardSize : Nat} {snake obstacles : List Cell}
    {start goal : Cell} {w : ℚ}
    (hnone : findPathGreedy boardSize snake obstacles start goal w = none) :
    ∀ r, ¬RouteOk boardSize snake obstacles start goal r := by
  intro r
  refine greedyLoop_complete (5 ^ (boardSize * boardSize + 1) + 1)
    [⟨start.x, start.y, 0, heuristic w start goal, heuristic w start goal, []⟩] ∅
    ?_ ?_ ?_ ?_ ?_ ?_ hnone r
  · have h1 : (insert start (allCells boardSize)).card ≤ (allCells boardSize).card + 1 :=
      Finset.card_insert_le _ _
    have h2 := allCells_card_le boardSize
    have hpot : greedyPot (insert start (allCells boardSize)) ∅
        [⟨start.x, start.y, 0, heuristic w start goal, heuristic w start goal, []⟩] =
        5 ^ ((insert start (allCells boardSize)).card) := by
      unfold greedyPot greedyWeight
      simp
    rw [hpot]
    have hle : 5 ^ ((insert start (allCells boardSize)).card) ≤
        5 ^ (boardSize * boardSize + 1) :=
      Nat.pow_le_pow_right (by norm_num) (by omega)
    omega
  · intro nd hnd
    have : nd = ⟨start.x, start.y, 0, heuristic w start goal, heuristic w start goal, []⟩ := by
      simpa using hnd
    subst this
    exact Finset.mem_insert_self _ _
  · exact Finset.empty_subset _
  · exact Finset.not_mem_empty _
  · exact Or.inr ⟨_, List.mem_singleton_self _, rfl⟩
  · intro z hz
    exact absurd hz (Finset.not_mem_empty _)

/-- C3 counterexample: the legacy Hamiltonian strategy's `findPath`
(part_000 lines 104-108) returns `null` even when a valid one-step route
from (0,0) to (0,1) exists on a 2×2 board with a single-cell snake, so
"returns null iff no route exists" fails for that strategy. -/
theorem c3_hamiltonian_null_despite_route :
    hamiltonianFindPath ⟨0, 0⟩ ⟨0, 1⟩ = none ∧
    RouteOk 2 [⟨0, 0⟩] [] ⟨0, 0⟩ ⟨0, 1⟩ [⟨0, 1⟩] := by
  constructor
  · rfl
  · decide

/-- C3 (amended): for the BFS, A*, Dijkstra and Greedy strategies,
`findPath` returns `null` exactly when no 4-connected route of valid cells
joins start to goal; the legacy Hamiltonian strategy's `findPath` returns
`null` unconditionally, so the "only if" direction fails for it. -/
theorem c3_findPath_null_iff_no_route (boardSize : Nat) (snake obstacles : List Cell)
    (start goal : Cell) (w : ℚ) :
    (findPathBFS boardSize snake obstacles start goal = none ↔
      ∀ r, ¬RouteOk boardSize snake obstacles start goal r) ∧
    (findPathAStar boardSize snake obstacles start goal w = none ↔
      ∀ r, ¬RouteOk boardSize snake obstacles start goal r) ∧
    (findPathDijkstra boardSize snake obstacles start goal = none ↔
      ∀ r, ¬RouteOk boardSize snake obstacles start goal r) ∧
    (findPathGreedy boardSize snake obstacles start goal w = none ↔
      ∀ r, ¬RouteOk boardSize snake obstacles start goal r) ∧
    (∀ s g : Cell, hamiltonianFindPath s g = none) := by
  have hinit : ∀ h0 f0 : ℚ, ∀ nd ∈ [(⟨start.x, start.y, 0, h0, f0, []⟩ : Nd)],
      NodeOk boardSize snake obstacles start nd := by
    intro h0 f0 nd hnd
    have : nd = ⟨start.x, start.y, 0, h0, f0, []⟩ := by simpa using hnd
    subst this
    exact startNode_nodeOk boardSize snake obstacles start h0 f0
  refine ⟨⟨findPathBFS_complete, ?_⟩, ⟨findPathAStar_complete, ?_⟩,
    ⟨findPathDijkstra_complete, ?_⟩, ⟨findPathGreedy_complete, ?_⟩, fun s g => rfl⟩
  · intro hall
    cases heq : findPathBFS boardSize snake obstacles start goal with
    | none => rfl
    | some p =>
      exact absurd (bfsLoop_sound _ _ _ p (hinit 0 0) heq) (hall p)
  · intro hall
    cases heq : findPathAStar boardSize snake obstacles start goal w with
    | none => rfl
    | some p =>
      exact absurd (aStarLoop_sound _ _ _ p
        (hinit (heuristic w start goal) (heuristic w start goal)) heq) (hall p)
  · intro hall
    cases heq : findPathDijkstra boardSize snake obstacles start goal with
    | none => rfl
    | some p =>
      exact absurd (dijkstraLoop_sound _ _ _ p (hinit 0 0) heq) (hall p)
  · intro hall
    cases heq : findPathGreedy boardSize snake obstacles start goal w with
    | none => rfl
    | some p =>
      exact absurd (greedyLoop_sound _ _ _ p
        (hinit (heuristic w start goal) (heuristic w start goal)) heq) (hall p)

/-- A constant integer list is sorted. -/
theorem pairwise_le_of_const {l : List Int} {c : Int} (h : ∀ x ∈ l, x = c) :
    l.Pairwise (fun a b => a ≤ b) := by
  induction l with
  | nil => exact List.Pairwise.nil
  | cons a t ih =>
    refine List.pairwise_cons.mpr ⟨?_, ih fun x hx => h x (List.mem_cons_of_mem _ hx)⟩
    intro b hb
    rw [h a (List.mem_cons_self _ _), h b (List.mem_cons_of_mem _ hb)]

/-- `bfsEnqueue` appends a block of fresh nodes, each carrying `g = cur.g+1`
and a cell unvisited before the call. -/
theorem bfsEnqueue_shape (cur : Nd) :
    ∀ (nbs : List Cell) (queue : List Nd) (v : Finset Cell),
      ∃ P, (bfsEnqueue cur nbs queue v).1 = queue ++ P ∧
        ∀ nd ∈ P, nd.g = cur.g + 1 ∧ nd.cell ∉ v := by
  intro nbs
  induction nbs with
  | nil => intro queue v; exact ⟨[], by simp [bfsEnqueue], fun nd hnd => absurd hnd (List.not_mem_nil _)⟩
  | cons nb t ih =>
    intro queue v
    rw [bfsEnqueue]
    by_cases hmem : nb ∈ v
    · rw [if_pos hmem]
      exact ih queue v
    · rw [if_neg hmem]
      obtain ⟨P, hP, hPmem⟩ := ih (queue ++ [⟨nb.x, nb.y, cur.g + 1, 0, 0, cur.path ++ [nb]⟩])
        (insert nb v)
      refine ⟨⟨nb.x, nb.y, cur.g + 1, 0, 0, cur.path ++ [nb]⟩ :: P, ?_, ?_⟩
      · rw [hP, List.append_assoc]
        rfl
      · intro nd hnd
        rcases List.mem_cons.mp hnd with h | h
        · subst h
          exact ⟨rfl, hmem⟩
        · obtain ⟨hg, hv⟩ := hPmem nd h
          exact ⟨hg, fun hin => hv (Finset.mem_insert_of_mem hin)⟩

/-- BFS minimality: from a state whose queue is sorted by `g` within a unit
window, whose `g` values lower-bound every route to their cells, and whose
visited set already covers all strictly closer cells, any returned route is
no longer than any valid route. -/
theorem bfsLoop_minimal {boardSize : Nat} {snake obstacles : List Cell} {start goal : Cell} :
    ∀ (fuel : Nat) (q : List Nd) (v : Finset Cell) (p : List Cell),
      (∀ nd ∈ q, NodeOk boardSize snake obstacles start nd) →
      ((q.map Nd.g).Pairwise (fun a b => a ≤ b)) →
      (∀ hd t', q = hd :: t' → ∀ nd ∈ q, nd.g ≤ hd.g + 1) →
      (∀ nd ∈ q, ∀ r', RouteOk boardSize snake obstacles start nd.cell r' →
        nd.g ≤ (r'.length : Int)) →
      (∀ z r', RouteOk boardSize snake obstacles start z r' →
        ∀ hd t', q = hd :: t' → (r'.length : Int) < hd.g → z ∈ v) →
      (∀ z ∈ v, (∀ nd ∈ q, nd.cell ≠ z) →
        ∀ c ∈ getNeighbors boardSize snake obstacles z, c ∈ v) →
      (∀ nd ∈ q, nd.cell ∈ v) →
      start ∈ v →
      bfsLoop boardSize snake obstacles goal fuel q v = some p →
      ∀ r', RouteOk boardSize snake obstacles start goal r' → p.length ≤ r'.length := by
  intro fuel
  induction fuel with
  | zero =>
    intro q v p _ _ _ _ _ _ _ _ hsome
    rw [bfsLoop] at hsome
    exact absurd hsome (by simp)
  | succ f ih =>
    intro q v p hM1 hM2 hM3 hM4 hM5 hM6 hB1 hB6 hsome r' hr'
    match q with
    | [] =>
      rw [bfsLoop] at hsome
      exact absurd hsome (by simp)
    | cur :: rest =>
      rw [bfsLoop] at hsome
      rw [List.map_cons] at hM2
      have hM2' := List.pairwise_cons.mp hM2
      have hheadmin : ∀ nd ∈ cur :: rest, cur.g ≤ nd.g := by
        intro nd hnd
        rcases List.mem_cons.mp hnd with h | h
        · rw [h]
        · exact hM2'.1 _ (List.mem_map.mpr ⟨nd, h, rfl⟩)
      have key : ∀ z r₀, RouteOk boardSize snake obstacles start z r₀ →
          (r₀.length : Int) ≤ cur.g → z ∈ v := by
        intro z r₀ h hlen
        by_cases hzv : z ∈ v
        · exact hzv
        exfalso
        by_cases hlt : (r₀.length : Int) < cur.g
        · exact hzv (hM5 z r₀ h cur rest rfl hlt)
        have hlen' : (r₀.length : Int) = cur.g := le_antisymm hlen (not_lt.mp hlt)
        rcases List.eq_nil_or_concat r₀ with hnil | ⟨r1, z1, hcat⟩
        · subst hnil
          have hsz : start = z := by simpa using h.2.2
          exact hzv (hsz ▸ hB6)
        · subst hcat
          rw [List.concat_eq_append] at h hlen'
          obtain ⟨hz1, hzval, z'', hz''last, hz''route, hadj⟩ := RouteOk.snoc_decomp h
          subst hz1
          have hlen1 : (r1.length : Int) < cur.g := by
            rw [List.length_append, List.length_singleton] at hlen'
            push_cast at hlen'
            omega
          have hz''v : z'' ∈ v := hM5 z'' r1 hz''route cur rest rfl hlen1
          by_cases hz''q : ∀ nd ∈ cur :: rest, nd.cell ≠ z''
          · exact hzv (hM6 z'' hz''v hz''q z1 (adjacent_mem_getNeighbors hzval hadj))
          · push_neg at hz''q
            obtain ⟨nd, hnd, hndcell⟩ := hz''q
            have h1 : nd.g ≤ (r1.length : Int) := hM4 nd hnd r1 (by rw [hndcell]; exact hz''route)
            have h2 := hheadmin nd hnd
            omega
      by_cases hgoal : cur.x = goal.x ∧ cur.y = goal.y
      · rw [if_pos hgoal] at hsome
        have hp : p = cur.path := (Option.some.inj hsome).symm
        obtain ⟨_, _, _, hg⟩ := hM1 cur (List.mem_cons_self _ _)
        have hcell : cur.cell = goal := by
          unfold Nd.cell
          rw [hgoal.1, hgoal.2]
        have hle := hM4 cur (List.mem_cons_self _ _) r' (by rw [hcell]; exact hr')
        rw [hg] at hle
        rw [hp]
        exact_mod_cast hle
      · rw [if_neg hgoal] at hsome
        replace hsome :
            bfsLoop boardSize snake obstacles goal f
              (bfsEnqueue cur (getNeighbors boardSize snake obstacles cur.cell) rest v).1
              (bfsEnqueue cur (getNeighbors boardSize snake obstacles cur.cell) rest v).2 =
              some p := hsome
        have hcurgoal : cur.cell ≠ goal := by
          intro h
          exact hgoal ⟨congrArg Cell.x h, congrArg Cell.y h⟩
        obtain ⟨P, hP, hPmem⟩ :=
          bfsEnqueue_shape cur (getNeighbors boardSize snake obstacles cur.cell) rest v
        have hwin : ∀ nd ∈ cur :: rest, nd.g ≤ cur.g + 1 := hM3 cur rest rfl
        have hhd : ∀ hd t',
            (bfsEnqueue cur (getNeighbors boardSize snake obstacles cur.cell) rest v).1 =
              hd :: t' → cur.g ≤ hd.g ∧ hd.g ≤ cur.g + 1 := by
          intro hd t' heq
          rw [hP] at heq
          cases hrest : rest with
          | nil =>
            rw [hrest, List.nil_append] at heq
            have hhdP : hd ∈ P := heq ▸ List.mem_cons_self _ _
            have := (hPmem hd hhdP).1
            omega
          | cons r0 rest' =>
            rw [hrest, List.cons_append] at heq
            have hr0 : r0 = hd := (List.cons.injEq _ _ _ _).mp heq |>.1
            subst hr0
            constructor
            · exact hheadmin r0 (by rw [hrest]; exact List.mem_cons_of_mem _ (List.mem_cons_self _ _))
            · exact hwin r0 (by rw [hrest]; exact List.mem_cons_of_mem _ (List.mem_cons_self _ _))
        refine ih _ _ _ ?_ ?_ ?_ ?_ ?_ ?_ ?_ ?_ hsome r' hr'
        · refine bfsEnqueue_nodeOk (hM1 cur (List.mem_cons_self _ _)) _ rest v ?_ ?_
          · intro nb hnb
            exact mem_getNeighbors hnb
          · intro nd hnd
            exact hM1 nd (List.mem_cons_of_mem _ hnd)
        · rw [hP, List.map_append]
          refine List.pairwise_append.mpr ⟨hM2'.2, ?_, ?_⟩
          · refine @pairwise_le_of_const _ (cur.g + 1) ?_
            intro x hx
            obtain ⟨nd, hnd, hcell⟩ := List.mem_map.mp hx
            exact hcell ▸ (hPmem nd hnd).1
          · intro a ha b hb
            obtain ⟨nda, hda, hcella⟩ := List.mem_map.mp ha
            obtain ⟨ndb, hdb, hcellb⟩ := List.mem_map.mp hb
            have h1 : a ≤ cur.g + 1 := hcella ▸ hwin nda (List.mem_cons_of_mem _ hda)
            have h2 : b = cur.g + 1 := hcellb ▸ (hPmem ndb hdb).1
            omega
        · intro hd t' heq nd hnd
          have hhd1 := (hhd hd t' heq).1
          rw [hP] at hnd
          rcases List.mem_append.mp hnd with h | h
          · have := hwin nd (List.mem_cons_of_mem _ h)
            omega
          · have := (hPmem nd h).1
            omega
        · intro nd hnd r₀ hroute
          rw [hP] at hnd
          rcases List.mem_append.mp hnd with h | h
          · exact hM4 nd (List.mem_cons_of_mem _ h) r₀ hroute
          · obtain ⟨hg, hv⟩ := hPmem nd h
            by_contra hc
            push_neg at hc
            have hle : (r₀.length : Int) ≤ cur.g := by omega
            exact hv (key nd.cell r₀ hroute hle)
        · intro z r₀ hroute hd t' heq hlen
          have hhd2 := (hhd hd t' heq).2
          have hle : (r₀.length : Int) ≤ cur.g := by omega
          exact bfsEnqueue_visited_monotone cur _ rest v z (key z r₀ hroute hle)
        · intro z hz hnotin c hc
          rcases bfsEnqueue_visited_mem cur _ rest v z hz with hzv | ⟨nd, hnd, hcell⟩
          · by_cases hcur : cur.cell = z
            · exact bfsEnqueue_nbs_visited cur _ rest v c (hcur ▸ hc)
            · by_cases hrest : ∃ nd ∈ rest, nd.cell = z
              · obtain ⟨nd, hnd, hcell⟩ := hrest
                exact absurd hcell (hnotin nd (bfsEnqueue_queue_monotone cur _ rest v nd hnd))
              · refine bfsEnqueue_visited_monotone cur _ rest v c ?_
                refine hM6 z hzv ?_ c hc
                intro nd hnd
                rcases List.mem_cons.mp hnd with h | h
                · exact h ▸ hcur
                · exact fun he => hrest ⟨nd, h, he⟩
          · exact absurd hcell (hnotin nd hnd)
        · exact bfsEnqueue_cells_visited cur _ rest v
            (fun nd hnd => hB1 nd (List.mem_cons_of_mem _ hnd))
        · exact bfsEnqueue_visited_monotone cur _ rest v start hB6

/-- C10: whenever `findPathBFS` returns a non-null route, that route has
minimal length — no 4-connected route of valid cells from start to goal is
strictly shorter. -/
theorem c10_bfs_route_is_shortest (boardSize : Nat) (snake obstacles : List Cell)
    (start goal : Cell) (r r' : List Cell)
    (hsome : findPathBFS boardSize snake obstacles start goal = some r)
    (hr' : RouteOk boardSize snake obstacles start goal r') :
    r.length ≤ r'.length := by
  refine bfsLoop_minimal (boardSize * boardSize + 2) [⟨start.x, start.y, 0, 0, 0, []⟩]
    {start} r ?_ ?_ ?_ ?_ ?_ ?_ ?_ ?_ hsome r' hr'
  · intro nd hnd
    have : nd = ⟨start.x, start.y, 0, 0, 0, []⟩ := by simpa using hnd
    subst this
    exact startNode_nodeOk boardSize snake obstacles start 0 0
  · simp
  · intro hd t' heq nd hnd
    have h1 : hd = ⟨start.x, start.y, 0, 0, 0, []⟩ := by
      have := congrArg List.head? heq
      simpa using this.symm
    have h2 : nd = ⟨start.x, start.y, 0, 0, 0, []⟩ := by simpa using hnd
    subst h1
    subst h2
    omega
  · intro nd hnd r₀ _
    have : nd = ⟨start.x, start.y, 0, 0, 0, []⟩ := by simpa using hnd
    subst this
    positivity
  · intro z r₀ _ hd t' heq hlen
    have h1 : hd = ⟨start.x, start.y, 0, 0, 0, []⟩ := by
      have := congrArg List.head? heq
      simpa using this.symm
    subst h1
    exfalso
    dsimp only at hlen
    have : (0 : Int) ≤ (r₀.length : Int) := by positivity
    omega
  · intro z hz hnotin
    exfalso
    refine hnotin ⟨start.x, start.y, 0, 0, 0, []⟩ (by simp) ?_
    rw [Finset.mem_singleton] at hz
    exact hz ▸ rfl
  · intro nd hnd
    have : nd = ⟨start.x, start.y, 0, 0, 0, []⟩ := by simpa using hnd
    subst this
    exact Finset.mem_singleton_self _
  · exact Finset.mem_singleton_self _

/-- C10 witness: on a 2×2 board with a single-cell snake, BFS finds the
two-step route to the opposite corner, and its length is minimal among
valid routes (compared here against that same route). -/
theorem c10_witness :
    findPathBFS 2 [⟨0, 0⟩] [] ⟨0, 0⟩ ⟨1, 1⟩ = some [⟨0, 1⟩, ⟨1, 1⟩] ∧
    RouteOk 2 [⟨0, 0⟩] [] ⟨0, 0⟩ ⟨1, 1⟩ [⟨0, 1⟩, ⟨1, 1⟩] ∧
    ([(⟨0, 1⟩ : Cell), ⟨1, 1⟩]).length ≤ ([(⟨0, 1⟩ : Cell), ⟨1, 1⟩]).length :=
  ⟨by decide, by decide,
    c10_bfs_route_is_shortest 2 [⟨0, 0⟩] [] ⟨0, 0⟩ ⟨1, 1⟩ _ _ (by decide) (by decide)⟩

/-- Congruence for `flatMap` over pointwise-equal row functions. -/
theorem flatMap_congr_mem {α β : Type} {l : List α} {f g : α → List β}
    (h : ∀ a ∈ l, f a = g a) : l.flatMap f = l.flatMap g := by
  induction l with
  | nil => rfl
  | cons a t ih =>
    rw [List.flatMap_cons, List.flatMap_cons, h a (List.mem_cons_self _ _),
      ih fun x hx => h x (List.mem_cons_of_mem _ hx)]

/-- A `filterMap` that always succeeds is a `map`. -/
theorem filterMap_eq_map_mem {α β : Type} {l : List α} {f : α → Option β} {g : α → β}
    (h : ∀ a ∈ l, f a = some (g a)) : l.filterMap f = l.map g := by
  induction l with
  | nil => rfl
  | cons a t ih =>
    rw [List.filterMap_cons, h a (List.mem_cons_self _ _), List.map_cons,
      ih fun x hx => h x (List.mem_cons_of_mem _ hx)]

/-- The head of a nonempty range. -/
theorem range_head? {k : Nat} (hk : 0 < k) : (List.range k).head? = some 0 := by
  obtain ⟨j, rfl⟩ : ∃ j, k = j + 1 := ⟨k - 1, by omega⟩
  rw [List.range_succ_eq_map]
  rfl

/-- The last entry of a nonempty range. -/
theorem range_getLast? {k : Nat} (hk : 0 < k) : (List.range k).getLast? = some (k - 1) := by
  obtain ⟨j, rfl⟩ : ∃ j, k = j + 1 := ⟨k - 1, by omega⟩
  rw [List.range_succ, List.getLast?_append]
  rfl

/-- Adjacency is symmetric. -/
theorem adjacent_comm {a b : Cell} : Adjacent a b ↔ Adjacent b a := by
  unfold Adjacent
  omega

/-- A map over `range k` whose consecutive images are related is a chain. -/
theorem chain'_map_range {α : Type} {R : α → α → Prop} {g : Nat → α} {k : Nat}
    (h : ∀ i, i + 1 < k → R (g i) (g (i + 1))) :
    List.Chain' R ((List.range k).map g) := by
  rw [List.chain'_map]
  cases k with
  | zero => exact List.chain'_nil
  | succ j =>
    rw [List.chain'_range_succ]
    intro m hm
    exact h m (by omega)

/-- Chaining a `flatMap` over `range k`: nonempty chained rows whose
junctions are adjacent give a chain, whose last entry is the last row's. -/
theorem chain'_flatMap_range (f : Nat → List Cell) :
    ∀ (k : Nat),
      (∀ y, y < k → f y ≠ []) →
      (∀ y, y < k → List.Chain' Adjacent (f y)) →
      (∀ y, y + 1 < k → ∀ a ∈ (f y).getLast?, ∀ b ∈ (f (y + 1)).head?, Adjacent a b) →
      List.Chain' Adjacent ((List.range k).flatMap f) ∧
        (∀ j, k = j + 1 → ((List.range k).flatMap f).getLast? = (f j).getLast?) := by
  intro k
  induction k with
  | zero =>
    intro _ _ _
    exact ⟨List.chain'_nil, fun j h => absurd h (by omega)⟩
  | succ j ih =>
    intro hne hchain hlink
    obtain ⟨ihc, ihl⟩ := ih (fun y hy => hne y (by omega)) (fun y hy => hchain y (by omega))
      (fun y hy a ha b hb => hlink y (by omega) a ha b hb)
    have hsplit : (List.range (j + 1)).flatMap f = (List.range j).flatMap f ++ f j := by
      rw [List.range_succ, List.flatMap_append]
      simp
    constructor
    · rw [hsplit]
      refine List.chain'_append.mpr ⟨ihc, hchain j (by omega), ?_⟩
      intro a ha b hb
      cases hj : j with
      | zero =>
        subst hj
        simp at ha
      | succ j' =>
        rw [ihl j' hj] at ha
        subst hj
        exact hlink j' (by omega) a ha b hb
    · intro j0 hj0
      have hj0' : j0 = j := by omega
      subst hj0'
      rw [hsplit, List.getLast?_append]
      obtain ⟨a, ha⟩ := Option.isSome_iff_exists.mp
        (List.getLast?_isSome.mpr (hne j0 (by omega)))
      rw [ha]
      rfl

/-- With no obstacles, every in-bounds cell is valid for the cycle. -/
theorem isCellValidForCycle_empty {n : Nat} {x y : Int}
    (hx0 : 0 ≤ x) (hxn : x < (n : Int)) (hy0 : 0 ≤ y) (hyn : y < (n : Int)) :
    isCellValidForCycle n [] x y = true := by
  unfold isCellValidForCycle
  have h1 : ¬((x < 0 || x ≥ (n : Int) || y < 0 || y ≥ (n : Int)) = true) := by
    simp only [Bool.or_eq_true, decide_eq_true_eq, not_or]
    push_neg
    exact ⟨⟨⟨hx0, hxn⟩, hy0⟩, hyn⟩
  rw [if_neg h1]
  have h2 : ¬(([] : List Cell).any (fun o => o.x = x && o.y = y) = true) := by simp
  rw [if_neg h2]

/-- On an obstacle-free board the boustrophedon block is a plain map. -/
theorem oddBoustrophedonBlock_empty (n : Nat) :
    oddBoustrophedonBlock n [] = (List.range (n - 1)).flatMap (fun (y : Nat) =>
      if y % 2 = 0 then
        (List.range (n - 1)).map (fun (x : Nat) => (⟨(x : Int), (y : Int)⟩ : Cell))
      else
        ((List.range (n - 1)).reverse).map (fun (x : Nat) => (⟨(x : Int), (y : Int)⟩ : Cell))) := by
  unfold oddBoustrophedonBlock
  refine flatMap_congr_mem ?_
  intro y hy
  rw [List.mem_range] at hy
  by_cases hp : y % 2 = 0
  · rw [if_pos hp, if_pos hp]
    refine filterMap_eq_map_mem ?_
    intro x hx
    rw [List.mem_range] at hx
    rw [isCellValidForCycle_empty (by omega) (by omega) (by omega) (by omega)]
    rfl
  · rw [if_neg hp, if_neg hp]
    refine filterMap_eq_map_mem ?_
    intro x hx
    rw [List.mem_reverse, List.mem_range] at hx
    rw [isCellValidForCycle_empty (by omega) (by omega) (by omega) (by omega)]
    rfl

/-- On an obstacle-free board the right-column block is a plain map. -/
theorem oddRightColumnBlock_empty {n : Nat} (h1 : 1 ≤ n) :
    oddRightColumnBlock n [] = (List.range (n - 1)).map
      (fun (y : Nat) => (⟨(n : Int) - 1, (y : Int)⟩ : Cell)) := by
  unfold oddRightColumnBlock
  refine filterMap_eq_map_mem ?_
  intro y hy
  rw [List.mem_range] at hy
  rw [isCellValidForCycle_empty (by omega) (by omega) (by omega) (by omega)]
  rfl

/-- On an obstacle-free board the bottom-row block is a plain map. -/
theorem oddBottomRowBlock_empty {n : Nat} (h1 : 1 ≤ n) :
    oddBottomRowBlock n [] = ((List.range n).reverse).map
      (fun (x : Nat) => (⟨(x : Int), (n : Int) - 1⟩ : Cell)) := by
  unfold oddBottomRowBlock
  refine filterMap_eq_map_mem ?_
  intro x hx
  rw [List.mem_reverse, List.mem_range] at hx
  rw [isCellValidForCycle_empty (by omega) (by omega) (by omega) (by omega)]
  rfl

/-- Chain and last-entry facts for the boustrophedon rows. -/
theorem oddB1_flat (n : Nat) :
    List.Chain' Adjacent ((List.range (n - 1)).flatMap (fun (y : Nat) =>
      if y % 2 = 0 then
        (List.range (n - 1)).map (fun (x : Nat) => (⟨(x : Int), (y : Int)⟩ : Cell))
      else
        ((List.range (n - 1)).reverse).map (fun (x : Nat) => (⟨(x : Int), (y : Int)⟩ : Cell)))) ∧
    (∀ j, n - 1 = j + 1 →
      ((List.range (n - 1)).flatMap (fun (y : Nat) =>
        if y % 2 = 0 then
          (List.range (n - 1)).map (fun (x : Nat) => (⟨(x : Int), (y : Int)⟩ : Cell))
        else
          ((List.range (n - 1)).reverse).map
            (fun (x : Nat) => (⟨(x : Int), (y : Int)⟩ : Cell)))).getLast? =
      (if j % 2 = 0 then
        (List.range (n - 1)).map (fun (x : Nat) => (⟨(x : Int), (j : Int)⟩ : Cell))
      else
        ((List.range (n - 1)).reverse).map
          (fun (x : Nat) => (⟨(x : Int), (j : Int)⟩ : Cell))).getLast?) := by
  refine chain'_flatMap_range _ (n - 1) ?_ ?_ ?_
  · intro y hy
    split <;>
    · intro hcontra
      have := congrArg List.length hcontra
      simp at this
      omega
  · intro y hy
    split
    · refine chain'_map_range ?_
      intro i hi
      unfold Adjacent
      dsimp only
      omega
    · rw [List.map_reverse, List.chain'_reverse]
      refine chain'_map_range ?_
      intro i hi
      show Adjacent _ _
      unfold Adjacent
      dsimp only
      omega
  · intro y hy a ha b hb
    have hpos : 0 < n - 1 := by omega
    by_cases hp : y % 2 = 0
    · have hp1 : ¬((y + 1) % 2 = 0) := by omega
      rw [if_pos hp] at ha
      rw [if_neg hp1] at hb
      rw [List.getLast?_map, range_getLast? hpos] at ha
      rw [List.map_reverse, List.head?_reverse, List.getLast?_map, range_getLast? hpos] at hb
      simp only [Option.map_some', Option.mem_def, Option.some.injEq] at ha hb
      subst ha
      subst hb
      unfold Adjacent
      dsimp only
      omega
    · have hp1 : (y + 1) % 2 = 0 := by omega
      rw [if_neg hp] at ha
      rw [if_pos hp1] at hb
      rw [List.map_reverse, List.getLast?_reverse, List.head?_map, range_head? hpos] at ha
      rw [List.head?_map, range_head? hpos] at hb
      simp only [Option.map_some', Option.mem_def, Option.some.injEq] at ha hb
      subst ha
      subst hb
      unfold Adjacent
      dsimp only
      omega

/-- The boustrophedon block is 4-connected. -/
theorem oddB1_chain (n : Nat) : List.Chain' Adjacent (oddBoustrophedonBlock n []) := by
  rw [oddBoustrophedonBlock_empty]
  exact (oddB1_flat n).1

/-- For odd `n ≥ 3` the boustrophedon block ends at `(0, n-2)`. -/
theorem oddB1_getLast {n : Nat} (h3 : 3 ≤ n) (hodd : n % 2 = 1) :
    (oddBoustrophedonBlock n []).getLast? = some ⟨0, (n : Int) - 2⟩ := by
  rw [oddBoustrophedonBlock_empty]
  have hm : n - 1 = (n - 2) + 1 := by omega
  rw [(oddB1_flat n).2 (n - 2) hm]
  have hp : ¬((n - 2) % 2 = 0) := by omega
  rw [if_neg hp, List.map_reverse, List.getLast?_reverse, List.head?_map,
    range_head? (show 0 < n - 1 by omega)]
  simp only [Option.map_some', Option.some.injEq]
  have hcast : ((n - 2 : Nat) : Int) = (n : Int) - 2 := by omega
  rw [← hcast]
  rfl

/-- The boustrophedon block starts at the origin. -/
theorem oddB1_head {n : Nat} (h2 : 2 ≤ n) :
    (oddBoustrophedonBlock n []).head? = some ⟨0, 0⟩ := by
  rw [oddBoustrophedonBlock_empty]
  have hm : n - 1 = (n - 2) + 1 := by omega
  rw [hm, List.range_succ_eq_map, List.flatMap_cons, List.head?_append]
  rw [if_pos (by norm_num)]
  rfl

/-- The right-column block is 4-connected. -/
theorem oddB2_chain {n : Nat} (h1 : 1 ≤ n) :
    List.Chain' Adjacent (oddRightColumnBlock n []) := by
  rw [oddRightColumnBlock_empty h1]
  refine chain'_map_range ?_
  intro i hi
  unfold Adjacent
  dsimp only
  omega

/-- The right-column block starts at `(n-1, 0)`. -/
theorem oddB2_head {n : Nat} (h2 : 2 ≤ n) :
    (oddRightColumnBlock n []).head? = some ⟨(n : Int) - 1, 0⟩ := by
  rw [oddRightColumnBlock_empty (by omega), List.head?_map, range_head? (by omega)]
  rfl

/-- The right-column block ends at `(n-1, n-2)`. -/
theorem oddB2_getLast {n : Nat} (h2 : 2 ≤ n) :
    (oddRightColumnBlock n []).getLast? = some ⟨(n : Int) - 1, (n : Int) - 2⟩ := by
  rw [oddRightColumnBlock_empty (by omega), List.getLast?_map,
    range_getLast? (by omega)]
  simp only [Option.map_some', Option.some.injEq]
  have hcast : ((n - 1 - 1 : Nat) : Int) = (n : Int) - 2 := by omega
  rw [hcast]

/-- The bottom-row block is 4-connected. -/
theorem oddB3_chain {n : Nat} (h1 : 1 ≤ n) :
    List.Chain' Adjacent (oddBottomRowBlock n []) := by
  rw [oddBottomRowBlock_empty h1, List.map_reverse, List.chain'_reverse]
  refine chain'_map_range ?_
  intro i hi
  show Adjacent _ _
  unfold Adjacent
  dsimp only
  omega

/-- The bottom-row block starts at `(n-1, n-1)`. -/
theorem oddB3_head {n : Nat} (h1 : 1 ≤ n) :
    (oddBottomRowBlock n []).head? = some ⟨(n : Int) - 1, (n : Int) - 1⟩ := by
  rw [oddBottomRowBlock_empty h1, List.map_reverse, List.head?_reverse, List.getLast?_map,
    range_getLast? (by omega)]
  simp only [Option.map_some', Option.some.injEq]
  have hcast : ((n - 1 : Nat) : Int) = (n : Int) - 1 := by omega
  rw [hcast]

/-- The bottom-row block ends at `(0, n-1)`. -/
theorem oddB3_getLast {n : Nat} (h1 : 1 ≤ n) :
    (oddBottomRowBlock n []).getLast? = some ⟨0, (n : Int) - 1⟩ := by
  rw [oddBottomRowBlock_empty h1, List.map_reverse, List.getLast?_reverse, List.head?_map,
    range_head? (by omega)]
  rfl

/-- The right column followed by the bottom row is one 4-connected chain. -/
theorem oddB23_chain {n : Nat} (h2 : 2 ≤ n) :
    List.Chain' Adjacent (oddRightColumnBlock n [] ++ oddBottomRowBlock n []) := by
  refine List.chain'_append.mpr ⟨oddB2_chain (by omega), oddB3_chain (by omega), ?_⟩
  intro a ha b hb
  rw [oddB2_getLast h2] at ha
  rw [oddB3_head (by omega)] at hb
  simp only [Option.mem_def, Option.some.injEq] at ha hb
  subst ha
  subst hb
  unfold Adjacent
  dsimp only
  omega

/-- The full odd cycle starts at the origin. -/
theorem oddCycle_head {n : Nat} (h3 : 3 ≤ n) :
    (generateOddSizeCycle n []).head? = some ⟨0, 0⟩ := by
  unfold generateOddSizeCycle
  rw [List.append_assoc, List.head?_append, oddB1_head (by omega)]
  rfl

/-- The full odd cycle ends at `(0, n-1)`. -/
theorem oddCycle_getLast {n : Nat} (h3 : 3 ≤ n) :
    (generateOddSizeCycle n []).getLast? = some ⟨0, (n : Int) - 1⟩ := by
  unfold generateOddSizeCycle
  rw [List.append_assoc, List.getLast?_append, List.getLast?_append,
    oddB3_getLast (by omega)]
  rfl

/-- The boustrophedon block has `(n-1)²` cells. -/
theorem oddB1_length (n : Nat) :
    (oddBoustrophedonBlock n []).length = (n - 1) * (n - 1) := by
  rw [oddBoustrophedonBlock_empty]
  simp only [List.length_flatMap]
  have h : (List.map (List.length ∘ fun (y : Nat) =>
      if y % 2 = 0 then
        (List.range (n - 1)).map (fun (x : Nat) => (⟨(x : Int), (y : Int)⟩ : Cell))
      else
        ((List.range (n - 1)).reverse).map (fun (x : Nat) => (⟨(x : Int), (y : Int)⟩ : Cell)))
      (List.range (n - 1))) = List.map (fun (_ : Nat) => n - 1) (List.range (n - 1)) :=
    List.map_congr_left (fun y _ => by
      dsimp only [Function.comp]
      split <;> simp)
  rw [h, List.map_const', List.sum_replicate, List.length_range, smul_eq_mul]

/-- The right-column block has `n-1` cells. -/
theorem oddB2_length {n : Nat} (h1 : 1 ≤ n) :
    (oddRightColumnBlock n []).length = n - 1 := by
  rw [oddRightColumnBlock_empty h1, List.length_map, List.length_range]

/-- The bottom-row block has `n` cells. -/
theorem oddB3_length {n : Nat} (h1 : 1 ≤ n) :
    (oddBottomRowBlock n []).length = n := by
  rw [oddBottomRowBlock_empty h1, List.length_map, List.length_reverse, List.length_range]

/-- The full odd cycle has `n²` entries. -/
theorem oddCycle_length {n : Nat} (h1 : 1 ≤ n) :
    (generateOddSizeCycle n []).length = n * n := by
  unfold generateOddSizeCycle
  rw [List.length_append, List.length_append, oddB1_length, oddB2_length h1, oddB3_length h1]
  obtain ⟨m, rfl⟩ : ∃ m, n = m + 1 := ⟨n - 1, by omega⟩
  simp only [Nat.add_sub_cancel]
  ring

/-- Membership in the boustrophedon block. -/
theorem mem_oddB1 {n : Nat} {c : Cell} :
    c ∈ oddBoustrophedonBlock n [] ↔
      ∃ x y : Nat, x < n - 1 ∧ y < n - 1 ∧ c = ⟨(x : Int), (y : Int)⟩ := by
  rw [oddBoustrophedonBlock_empty]
  rw [List.mem_flatMap]
  constructor
  · rintro ⟨y, hy, hc⟩
    rw [List.mem_range] at hy
    by_cases hp : y % 2 = 0
    · rw [if_pos hp, List.mem_map] at hc
      obtain ⟨x, hx, rfl⟩ := hc
      rw [List.mem_range] at hx
      exact ⟨x, y, hx, hy, rfl⟩
    · rw [if_neg hp, List.mem_map] at hc
      obtain ⟨x, hx, rfl⟩ := hc
      rw [List.mem_reverse, List.mem_range] at hx
      exact ⟨x, y, hx, hy, rfl⟩
  · rintro ⟨x, y, hx, hy, rfl⟩
    refine ⟨y, List.mem_range.mpr hy, ?_⟩
    by_cases hp : y % 2 = 0
    · rw [if_pos hp, List.mem_map]
      exact ⟨x, List.mem_range.mpr hx, rfl⟩
    · rw [if_neg hp, List.mem_map]
      exact ⟨x, List.mem_reverse.mpr (List.mem_range.mpr hx), rfl⟩

/-- Membership in the right-column block. -/
theorem mem_oddB2 {n : Nat} {c : Cell} (h1 : 1 ≤ n) :
    c ∈ oddRightColumnBlock n [] ↔
      ∃ y : Nat, y < n - 1 ∧ c = ⟨(n : Int) - 1, (y : Int)⟩ := by
  rw [oddRightColumnBlock_empty h1, List.mem_map]
  constructor
  · rintro ⟨y, hy, rfl⟩
    rw [List.mem_range] at hy
    exact ⟨y, hy, rfl⟩
  · rintro ⟨y, hy, rfl⟩
    exact ⟨y, List.mem_range.mpr hy, rfl⟩

/-- Membership in the bottom-row block. -/
theorem mem_oddB3 {n : Nat} {c : Cell} (h1 : 1 ≤ n) :
    c ∈ oddBottomRowBlock n [] ↔
      ∃ x : Nat, x < n ∧ c = ⟨(x : Int), (n : Int) - 1⟩ := by
  rw [oddBottomRowBlock_empty h1, List.mem_map]
  constructor
  · rintro ⟨x, hx, rfl⟩
    rw [List.mem_reverse, List.mem_range] at hx
    exact ⟨x, hx, rfl⟩
  · rintro ⟨x, hx, rfl⟩
    exact ⟨x, List.mem_reverse.mpr (List.mem_range.mpr hx), rfl⟩

/-- Membership in the full board cell list, coordinate form. -/
theorem mem_allCellsList_iff {n : Nat} {c : Cell} :
    c ∈ allCellsList n ↔ ∃ x y : Nat, x < n ∧ y < n ∧ c = ⟨(x : Int), (y : Int)⟩ := by
  unfold allCellsList
  rw [List.mem_flatMap]
  constructor
  · rintro ⟨y, hy, hc⟩
    rw [List.mem_range] at hy
    rw [List.mem_map] at hc
    obtain ⟨x, hx, rfl⟩ := hc
    rw [List.mem_range] at hx
    exact ⟨x, y, hx, hy, rfl⟩
  · rintro ⟨x, y, hx, hy, rfl⟩
    exact ⟨y, List.mem_range.mpr hy, List.mem_map.mpr ⟨x, List.mem_range.mpr hx, rfl⟩⟩

/-- The boustrophedon block has no duplicate cells. -/
theorem oddB1_nodup (n : Nat) : (oddBoustrophedonBlock n []).Nodup := by
  rw [oddBoustrophedonBlock_empty, List.nodup_flatMap]
  have hrowy : ∀ (y : Nat) (c : Cell), c ∈ (if y % 2 = 0 then
      (List.range (n - 1)).map (fun (x : Nat) => (⟨(x : Int), (y : Int)⟩ : Cell))
    else
      ((List.range (n - 1)).reverse).map (fun (x : Nat) => (⟨(x : Int), (y : Int)⟩ : Cell))) →
      c.y = (y : Int) := by
    intro y c hc
    split at hc <;>
    · obtain ⟨x, _, rfl⟩ := List.mem_map.mp hc
      rfl
  constructor
  · intro y _
    have hinj : Function.Injective (fun (x : Nat) => (⟨(x : Int), (y : Int)⟩ : Cell)) := by
      intro a b hab
      simp only [Cell.mk.injEq] at hab
      exact_mod_cast hab.1
    split
    · exact (List.nodup_range _).map hinj
    · exact (List.nodup_reverse.mpr (List.nodup_range _)).map hinj
  · refine (List.pairwise_lt_range _).imp ?_
    intro y y' hlt
    intro c hc hc'
    have h1 := hrowy y c hc
    have h2 := hrowy y' c hc'
    rw [h1] at h2
    have : y = y' := by exact_mod_cast h2
    omega

/-- The right-column block has no duplicate cells. -/
theorem oddB2_nodup {n : Nat} (h1 : 1 ≤ n) : (oddRightColumnBlock n []).Nodup := by
  rw [oddRightColumnBlock_empty h1]
  refine (List.nodup_range _).map ?_
  intro a b hab
  simp only [Cell.mk.injEq] at hab
  exact_mod_cast hab.2

/-- The bottom-row block has no duplicate cells. -/
theorem oddB3_nodup {n : Nat} (h1 : 1 ≤ n) : (oddBottomRowBlock n []).Nodup := by
  rw [oddBottomRowBlock_empty h1]
  refine (List.nodup_reverse.mpr (List.nodup_range _)).map ?_
  intro a b hab
  simp only [Cell.mk.injEq] at hab
  exact_mod_cast hab.1

/-- The full odd cycle has no duplicate cells. -/
theorem oddCycle_nodup {n : Nat} (h1 : 1 ≤ n) : (generateOddSizeCycle n []).Nodup := by
  unfold generateOddSizeCycle
  rw [List.append_assoc, List.nodup_append]
  refine ⟨oddB1_nodup n, ?_, ?_⟩
  · rw [List.nodup_append]
    refine ⟨oddB2_nodup h1, oddB3_nodup h1, ?_⟩
    intro c hc hc'
    obtain ⟨y, hy, rfl⟩ := (mem_oddB2 h1).mp hc
    obtain ⟨x, hx, heq⟩ := (mem_oddB3 h1).mp hc'
    simp only [Cell.mk.injEq] at heq
    omega
  · intro c hc hc'
    obtain ⟨x, y, hx, hy, rfl⟩ := mem_oddB1.mp hc
    rcases List.mem_append.mp hc' with h | h
    · obtain ⟨y', hy', heq⟩ := (mem_oddB2 h1).mp h
      simp only [Cell.mk.injEq] at heq
      omega
    · obtain ⟨x', hx', heq⟩ := (mem_oddB3 h1).mp h
      simp only [Cell.mk.injEq] at heq
      omega

/-- The full odd cycle covers every board cell. -/
theorem oddCycle_covers {n : Nat} (h1 : 1 ≤ n) :
    ∀ c ∈ allCellsList n, c ∈ generateOddSizeCycle n [] := by
  intro c hc
  obtain ⟨x, y, hx, hy, rfl⟩ := mem_allCellsList_iff.mp hc
  unfold generateOddSizeCycle
  rw [List.append_assoc, List.mem_append, List.mem_append]
  by_cases hy' : y = n - 1
  · refine Or.inr (Or.inr ((mem_oddB3 h1).mpr ⟨x, hx, ?_⟩))
    subst hy'
    have : ((n - 1 : Nat) : Int) = (n : Int) - 1 := by omega
    rw [this]
  · by_cases hx' : x = n - 1
    · refine Or.inr (Or.inl ((mem_oddB2 h1).mpr ⟨y, by omega, ?_⟩))
      subst hx'
      have : ((n - 1 : Nat) : Int) = (n : Int) - 1 := by omega
      rw [this]
    · exact Or.inl (mem_oddB1.mpr ⟨x, y, by omega, by omega, rfl⟩)

/-- C8 (amended): for every odd boardSize ≥ 3 with no obstacles the
constructor produces the degraded three-block variant — boustrophedon over
rows 0..n-2 restricted to columns 0..n-2, then the rightmost column top to
bottom, then the bottom row right to left — which lists every board cell
exactly once (length n², no duplicates, full coverage) and is 4-connected
within the boustrophedon block and within the column-plus-bottom-row tail,
but the sequence does not close the loop: the junction from the
boustrophedon block at (0, n-2) into the rightmost column at (n-1, 0) is not
4-adjacent, and neither is the wraparound pair (0, n-1) to (0, 0). -/
theorem c8_odd_cycle_blocks_cover_but_open (n : Nat) (hodd : n % 2 = 1) (h3 : 3 ≤ n) :
    (generateOddSizeCycle n []).length = n * n ∧
    (generateOddSizeCycle n []).Nodup ∧
    (∀ c ∈ allCellsList n, c ∈ generateOddSizeCycle n []) ∧
    List.Chain' Adjacent (oddBoustrophedonBlock n []) ∧
    List.Chain' Adjacent (oddRightColumnBlock n [] ++ oddBottomRowBlock n []) ∧
    (oddBoustrophedonBlock n []).getLast? = some ⟨0, (n : Int) - 2⟩ ∧
    (oddRightColumnBlock n []).head? = some ⟨(n : Int) - 1, 0⟩ ∧
    ¬Adjacent ⟨0, (n : Int) - 2⟩ ⟨(n : Int) - 1, 0⟩ ∧
    (generateOddSizeCycle n []).getLast? = some ⟨0, (n : Int) - 1⟩ ∧
    (generateOddSizeCycle n []).head? = some ⟨0, 0⟩ ∧
    ¬Adjacent ⟨0, (n : Int) - 1⟩ ⟨0, 0⟩ := by
  have h1 : 1 ≤ n := by omega
  refine ⟨oddCycle_length h1, oddCycle_nodup h1, oddCycle_covers h1, oddB1_chain n,
    oddB23_chain (by omega), oddB1_getLast h3 hodd, oddB2_head (by omega), ?_,
    oddCycle_getLast h3, oddCycle_head h3, ?_⟩
  · intro hadj
    unfold Adjacent at hadj
    dsimp only at hadj
    omega
  · intro hadj
    unfold Adjacent at hadj
    dsimp only at hadj
    omega

/-- C8 witness: the amended statement instantiated at boardSize 3. -/
theorem c8_witness :
    (3 : Nat) % 2 = 1 ∧ 3 ≤ 3 ∧
    (generateOddSizeCycle 3 []).length = 3 * 3 ∧
    ¬Adjacent ⟨0, (3 : Int) - 2⟩ ⟨(3 : Int) - 1, 0⟩ ∧
    ¬Adjacent ⟨0, (3 : Int) - 1⟩ ⟨0, 0⟩ := by
  refine ⟨by decide, by decide, ?_, ?_, ?_⟩
  · exact (c8_odd_cycle_blocks_cover_but_open 3 (by decide) (by decide)).1
  · exact (c8_odd_cycle_blocks_cover_but_open 3 (by decide) (by decide)).2.2.2.2.2.2.2.1
  · exact (c8_odd_cycle_blocks_cover_but_open 3 (by decide) (by decide)).2.2.2.2.2.2.2.2.2.2
